import Mathlib

/-!
Verification development for the dj-translation-cli repository.

The Python sources (`src/utils.py`, `src/translate.py`) are shallowly embedded
below.  Text is modelled as `List Char`; the three regular expressions of
`src/utils.py` are embedded as deterministic matchers whose behaviour at a
position coincides with Python `re` backtracking on these particular patterns
(argued pattern by pattern in the doc comments); `re.finditer` / `re.findall`
become a leftmost non-overlapping scan; `str.replace` becomes a left-to-right
replace-all; `dict` becomes an insertion-ordered association list; the
interactive loop of `prompt_for_translation` becomes a transition function over
an explicit input trace.
-/

namespace DjTranslation

/-- Whitespace set of Python `str.split()` / `str.strip()` for ASCII text. -/
def pyIsSpace (c : Char) : Bool :=
  (c == ' ') || (c == '\t') || (c == '\n') || (c == '\r') || (c == '\x0b') || (c == '\x0c')

/-- Helper for `pySplit`: `w` is the current word accumulated in reverse. -/
def pySplitAux : List Char → List Char → List (List Char)
  | w, [] => if w.isEmpty then [] else [w.reverse]
  | w, c :: cs =>
    if pyIsSpace c then
      if w.isEmpty then pySplitAux [] cs else w.reverse :: pySplitAux [] cs
    else pySplitAux (c :: w) cs

/-- Python `str.split()` with no argument: split on whitespace runs, dropping
empty pieces. -/
def pySplit (s : List Char) : List (List Char) := pySplitAux [] s

/-- Python `str.strip()`: remove leading and trailing whitespace. -/
def pyStrip (s : List Char) : List Char :=
  ((s.dropWhile pyIsSpace).reverse.dropWhile pyIsSpace).reverse

/-- Drop a literal pattern from the front of a character list, or fail. -/
def dropPat : List Char → List Char → Option (List Char)
  | [], s => some s
  | _ :: _, [] => none
  | p :: ps, c :: cs => if p = c then dropPat ps cs else none

/-- Characters of the current line (everything before the next newline). -/
def lineOf (s : List Char) : List Char := s.takeWhile (fun c => c != '\n')

/-- Everything from the next newline on (the newline included). -/
def afterLine (s : List Char) : List Char := s.dropWhile (fun c => c != '\n')

/-- Python `str.replace(pat, rep)` on character lists: replace every
non-overlapping occurrence, scanning left to right.  `fuel` bounds the
recursion; callers pass the length of the subject string, which suffices for
the nonempty patterns used by the program. -/
def listReplaceAux (pat rep : List Char) : Nat → List Char → List Char
  | 0, s => s
  | _, [] => []
  | fuel + 1, c :: cs =>
    if pat.isPrefixOf (c :: cs) then
      rep ++ listReplaceAux pat rep fuel ((c :: cs).drop pat.length)
    else
      c :: listReplaceAux pat rep fuel cs

/-- Python `str.replace` (all occurrences). -/
def listReplace (s pat rep : List Char) : List Char := listReplaceAux pat rep s.length s

/-- Python insertion-ordered `dict` lookup on an association list. -/
def pyDictGet {α : Type} (d : List (String × α)) (k : String) : Option α :=
  (d.find? (fun p => p.1 == k)).map (fun p => p.2)

/-- Python `d[k] = v`: overwrite in place if the key exists, else append. -/
def pyDictSet {α : Type} (d : List (String × α)) (k : String) (v : α) :
    List (String × α) :=
  match d with
  | [] => [(k, v)]
  | (k', v') :: rest =>
    if k' == k then (k', v) :: rest else (k', v') :: pyDictSet rest k v

/-! ### Literal fragments of the three regular expressions -/

def litMsgidQ : List Char := ("msgid \"").data
def litSimpleTail : List Char := ("\nmsgstr \"\"\n\n").data
def litFuzzyHead : List Char := ("#, fuzzy\n#| msgid \"").data
def litNlMsgidQ : List Char := ("\nmsgid \"").data
def litNlMsgstrQ : List Char := ("\nmsgstr \"").data
def litMsgidQQ : List Char := ("msgid \"\"").data
def litMsgstrQQ : List Char := ("msgstr \"\"").data
def litMsgstrQ : List Char := ("msgstr \"").data

/-! ### The three matchers

Each matcher takes the suffix of the text starting at the candidate position
and returns the match payload together with the remainder of the text after
the match, or `none`.
-/

/-- Matcher for `TRANSLATION_REGEX = msgid "(.*)"\nmsgstr ""\n\n` at a
position.  Since `.` excludes newlines and the closing `"` of the group is
followed by `\n` in the pattern, the closing quote is forced to be the last
character before the next newline; the match is therefore deterministic:
the rest of the line after `msgid "` must end in `"`, and the literal
`\nmsgstr ""\n\n` must follow.  Payload: (full matched text, group 1). -/
def matchSimple (s : List Char) : Option ((List Char × List Char) × List Char) :=
  match dropPat litMsgidQ s with
  | none => none
  | some t =>
    let line := lineOf t
    if line.getLast? = some '"' then
      match dropPat litSimpleTail (afterLine t) with
      | none => none
      | some r => some ((litMsgidQ ++ line ++ litSimpleTail, line.dropLast), r)
    else none

/-- Matcher for
`FUZZY_REGEX = #, fuzzy\n#\| msgid ".*"\nmsgid "(.*)"\nmsgstr "(.*)"`.
The quotes closing the first two `.*` are each followed by `\n` in the
pattern, so they must be the last character of their lines; the final `"(.*)"`
is greedy and ends the pattern, so group 2 extends to the last `"` of its
line.  Payload: (full matched text, group 1, group 2). -/
def matchFuzzy (s : List Char) :
    Option ((List Char × List Char × List Char) × List Char) :=
  match dropPat litFuzzyHead s with
  | none => none
  | some t1 =>
    let l1 := lineOf t1
    if l1.getLast? = some '"' then
      match dropPat litNlMsgidQ (afterLine t1) with
      | none => none
      | some t2 =>
        let l2 := lineOf t2
        if l2.getLast? = some '"' then
          match dropPat litNlMsgstrQ (afterLine t2) with
          | none => none
          | some t3 =>
            let l3 := lineOf t3
            let rev := l3.reverse
            let trail := rev.takeWhile (fun c => c != '"')
            if trail.length = l3.length then none
            else
              let g2 := ((rev.dropWhile (fun c => c != '"')).drop 1).reverse
              let full := litFuzzyHead ++ l1 ++ litNlMsgidQ ++ l2 ++
                litNlMsgstrQ ++ g2 ++ ['"']
              some ((full, l2.dropLast, g2), trail.reverse ++ afterLine t3)
        else none
    else none

/-- A continuation line of the wrapped shape: starts and ends with `"` and has
length at least 2. -/
def isQuoteLine (line : List Char) : Bool :=
  decide (2 ≤ line.length) && (line.head? == some '"') && (line.getLast? == some '"')

/-- Loop for the `(\n"(.*?)")+` part of `LONG_TRANSLATION_REGEX` after the
first continuation line, followed by the terminator `\nmsgstr ""\n\n`.
Every successful backtracking parse of the original pattern closes each
continuation quote immediately before a newline, so units coincide with whole
lines that start and end with `"`; a line equal to `msgstr ""` can never be a
continuation line and vice versa, hence the parse is deterministic.
Returns (characters consumed into group 1, remainder after the full match). -/
def longLoop : Nat → List Char → Option (List Char × List Char)
  | 0, _ => none
  | fuel + 1, s =>
    match s with
    | '\n' :: s' =>
      let line := lineOf s'
      if line = litMsgstrQQ then
        match afterLine s' with
        | '\n' :: '\n' :: tail => some ([], tail)
        | _ => none
      else if isQuoteLine line then
        match longLoop fuel (afterLine s') with
        | none => none
        | some (sp, rest) => some ('\n' :: line ++ sp, rest)
      else none
    | _ => none

/-- Matcher for `LONG_TRANSLATION_REGEX = msgid ""((\n"(.*?)")+)\nmsgstr ""\n\n`.
At least one continuation line is required.  Payload: (full matched text,
group 1 — the span of all continuation lines with their leading newlines). -/
def matchLong (s : List Char) : Option ((List Char × List Char) × List Char) :=
  match dropPat litMsgidQQ s with
  | none => none
  | some t =>
    match t with
    | '\n' :: t' =>
      let line := lineOf t'
      if isQuoteLine line then
        match longLoop t'.length (afterLine t') with
        | none => none
        | some (sp, rest) =>
          let span := '\n' :: line ++ sp
          some ((litMsgidQQ ++ span ++ litSimpleTail, span), rest)
      else none
    | _ => none

/-- Leftmost non-overlapping scan, the model of `re.finditer`: try the matcher
at every position from left to right and continue after each match.  `fuel`
bounds the recursion; the scan entry points pass the length of the text. -/
def scanWith {α : Type} (m : List Char → Option (α × List Char)) :
    Nat → List Char → List α
  | 0, _ => []
  | _, [] => []
  | fuel + 1, c :: cs =>
    match m (c :: cs) with
    | some (a, rest) => a :: scanWith m fuel rest
    | none => scanWith m fuel cs

/-- All matches of `TRANSLATION_REGEX` in document order. -/
def scanSimple (c : List Char) : List (List Char × List Char) :=
  scanWith matchSimple c.length c

/-- All matches of `FUZZY_REGEX` in document order. -/
def scanFuzzy (c : List Char) : List (List Char × List Char × List Char) :=
  scanWith matchFuzzy c.length c

/-- All matches of `LONG_TRANSLATION_REGEX` in document order. -/
def scanLong (c : List Char) : List (List Char × List Char) :=
  scanWith matchLong c.length c

/-- Identifier of a wrapped-shape match:
`found.group(1).replace('"', "").replace("\n", "")` (src/utils.py line 19/86). -/
def longMsgId (span : List Char) : List Char :=
  (span.filter (fun c => c != '"')).filter (fun c => c != '\n')

/-! ### Catalog Scanner (`extract_msgs_from_file`, src/utils.py lines 16-22) -/

/-- Group-1 strings of `TRANSLATION_REGEX.findall(content)`. -/
def simpleIds (content : String) : List String :=
  (scanSimple content.data).map (fun m => (⟨m.2⟩ : String))

/-- Identifiers of the wrapped-shape matches, in document order. -/
def wrappedIds (content : String) : List String :=
  (scanLong content.data).map (fun m => (⟨longMsgId m.2⟩ : String))

/-- Group-1 strings of the fuzzy-shape matches, in document order. -/
def fuzzyIds (content : String) : List String :=
  (scanFuzzy content.data).map (fun m => (⟨m.2.1⟩ : String))

/-- Embedding of `extract_msgs_from_file`: start from the `findall` of the
simple shape, append each wrapped-shape identifier in a loop, then extend with
the fuzzy-shape identifiers. -/
def extract_msgs_from_file (content : String) : List String :=
  let msgs := simpleIds content
  let msgs := (scanLong content.data).foldl
    (fun acc m => acc ++ [(⟨longMsgId m.2⟩ : String)]) msgs
  msgs ++ fuzzyIds content

/-! ### `_wrap_string` (src/utils.py lines 111-122) -/

/-- Join words with single spaces. -/
def joinSp : List (List Char) → List Char
  | [] => []
  | [w] => w
  | w :: ws => w ++ ' ' :: joinSp ws

/-- Join lines with newlines (Python `"\n".join`). -/
def joinNl : List (List Char) → List Char
  | [] => []
  | [l] => l
  | l :: ls => l ++ '\n' :: joinNl ls

/-- Loop body of `_wrap_string`: `cur` is `current_line`, `lines` the
accumulator. -/
def wrapAux : List (List Char) → List Char → List (List Char) → List (List Char)
  | [], cur, lines => if cur.isEmpty then lines else lines ++ [pyStrip cur]
  | w :: ws, cur, lines =>
    if cur.length + w.length ≤ 80 then
      wrapAux ws (cur ++ ' ' :: w) lines
    else
      wrapAux ws ('"' :: w) (lines ++ [pyStrip cur ++ [' ', '"']])

/-- Embedding of `_wrap_string`. -/
def wrapString (s : String) : String :=
  ⟨joinNl (wrapAux (pySplit s.data) [] [])⟩

/-! ### Catalog Patcher (src/utils.py lines 49-108) -/

/-- Embedding of `replace_default_translation_in_file`.  The `finditer` runs
over the content as passed in; each counted match's text is replaced
everywhere in the evolving content by `str.replace`, after rewriting
`msgstr ""` to the quoted translation inside the matched text (also via
`str.replace`, hence every occurrence inside the match). -/
def replace_default_translation_in_file (content : List Char)
    (msgs : List (String × String)) : List Char × Nat :=
  (scanSimple content).foldl
    (fun st m =>
      match pyDictGet msgs (⟨m.2⟩ : String) with
      | none => st
      | some v =>
        if v = "" then st
        else
          let translated := listReplace m.1 litMsgstrQQ (litMsgstrQ ++ v.data ++ ['"'])
          (listReplace st.1 m.1 translated, st.2 + 1))
    (content, 0)

/-- Embedding of `replace_fuzzy_translation_in_file`: a counted fuzzy match is
replaced everywhere by the minimal pair `msgid "{id}"\nmsgstr "{v}"\n\n`. -/
def replace_fuzzy_translation_in_file (content : List Char)
    (msgs : List (String × String)) : List Char × Nat :=
  (scanFuzzy content).foldl
    (fun st m =>
      match pyDictGet msgs (⟨m.2.1⟩ : String) with
      | none => st
      | some v =>
        if v = "" then st
        else
          let translated := litMsgidQ ++ m.2.1 ++ ("\"\nmsgstr \"").data ++
            v.data ++ ("\"\n\n").data
          (listReplace st.1 m.1 translated, st.2 + 1))
    (content, 0)

/-- Embedding of `replace_long_translation_in_file`: a counted wrapped match is
replaced everywhere by
`msgid ""{group1}\nmsgstr ""\n"{_wrap_string(v)}"\n\n`. -/
def replace_long_translation_in_file (content : List Char)
    (msgs : List (String × String)) : List Char × Nat :=
  (scanLong content).foldl
    (fun st m =>
      match pyDictGet msgs (⟨longMsgId m.2⟩ : String) with
      | none => st
      | some v =>
        if v = "" then st
        else
          let translated := litMsgidQQ ++ m.2 ++ ("\nmsgstr \"\"\n\"").data ++
            (wrapString v).data ++ ("\"\n\n").data
          (listReplace st.1 m.1 translated, st.2 + 1))
    (content, 0)

/-- Embedding of `replace_translation_in_content` (src/utils.py lines 95-108):
the three passes in order, summing the counts.  The source's final
`content.replace("\n\n\n\n", "\n\n")` (line 107) discards its result — string
replace is not in-place — so the returned text is the output of the third
pass unchanged. -/
def replace_translation_in_content (msgs : List (String × String))
    (content : String) : String × Nat :=
  let r1 := replace_default_translation_in_file content.data msgs
  let r2 := replace_fuzzy_translation_in_file r1.1 msgs
  let r3 := replace_long_translation_in_file r2.1 msgs
  ((⟨r3.1⟩ : String), r1.2 + r2.2 + r3.2)

/-! ### Interchange Codec (`extract_translations_from_csv`, src/utils.py
lines 34-46).  A CSV file is modelled as its header row plus its body rows;
`csv.DictReader` turns each row into a dict keyed by the header names. -/

/-- dict(zip(fieldnames, row)): later duplicate field names overwrite. -/
def pyZipDict : List String → List String → List (String × String)
  | [], _ => []
  | _, [] => []
  | k :: ks, v :: vs => pyDictSet (pyZipDict ks vs) k v

/-- Lookup of a cell of a row by field name; `none` models a `KeyError` or a
missing cell. -/
def rowGet (header row : List String) (k : String) : Option String :=
  pyDictGet (pyZipDict header row) k

/-- Embedding of `extract_translations_from_csv`: `languages` is every header
column after the first; for each row and each language the cell is stored
under the row's `msgid` cell in that language's map.  A `KeyError` (missing
column) is modelled by `none`. -/
def extract_translations_from_csv (header : List String)
    (rows : List (List String)) :
    Option (List (String × List (String × String))) :=
  let langs := header.drop 1
  rows.foldlM
    (fun msgs row =>
      langs.foldlM
        (fun msgs2 lang =>
          match rowGet header row ("msgid"), rowGet header row lang with
          | some mid, some v =>
            let inner := (pyDictGet msgs2 lang).getD []
            some (pyDictSet msgs2 lang (pyDictSet inner mid v))
          | _, _ => none)
        msgs)
    []

/-! ### Interactive Collector (`prompt_for_translation`, src/utils.py
lines 161-195).  The loop is modelled as a transition function consuming a
trace of submitted prompt lines and a trace of confirmation answers.  Python
negative indexing of `msgs[i]` is modelled by `pyIndex`; an index outside
`-len ≤ i < len` raises `IndexError`, modelled by the `crashed` outcome. -/

/-- Python list indexing with negative-index wraparound. -/
def pyIndex (l : List String) (i : Int) : Option String :=
  if 0 ≤ i then l.get? i.toNat
  else if 0 ≤ (l.length : Int) + i then l.get? ((l.length : Int) + i).toNat
  else none

/-- Outcome of a session run on a finite input trace. -/
inductive PromptOutcome where
  /-- The while loop ended (cursor past the end, or `:x`): the collected
  translations are returned. -/
  | finished (translations : List (String × String)) : PromptOutcome
  /-- `sys.exit(0)` was reached via `:q`. -/
  | exited : PromptOutcome
  /-- `msgs[i]` raised `IndexError` (cursor below `-len(msgs)`). -/
  | crashed : PromptOutcome
  /-- The input trace ran out while the loop was still waiting; the pending
  cursor and translations are recorded. -/
  | starved (i : Int) (translations : List (String × String)) : PromptOutcome
deriving DecidableEq

/-- Result of a session: the identifiers displayed, in order, and the
outcome. -/
structure SessionResult where
  shown : List String
  outcome : PromptOutcome
deriving DecidableEq

/-- One run of the `while i < len(msgs)` loop of `prompt_for_translation`.
Each iteration prints `msgs[i]`, reads one submitted line, and dispatches on
the `match` of lines 171-193: empty input asks a confirmation whose answer is
discarded and loops; `:u` decrements the cursor with no clamp; `:n`
increments; `:b` resets to 0; `:x` breaks returning the translations; `:q`
asks a confirmation whose answer is discarded and exits; anything else is
stored as the translation of the current identifier and the cursor
advances. -/
def promptRun (msgs : List String) :
    List String → List Bool → Int → List (String × String) → List String →
    SessionResult
  | inputs, confirms, i, tr, shown =>
    if i < (msgs.length : Int) then
      match pyIndex msgs i with
      | none => ⟨shown, .crashed⟩
      | some cur =>
        match inputs with
        | [] => ⟨shown ++ [cur], .starved i tr⟩
        | line :: rest =>
          if line = "" then
            match confirms with
            | [] => ⟨shown ++ [cur], .starved i tr⟩
            | _ :: cs => promptRun msgs rest cs i tr (shown ++ [cur])
          else if line = ":u" then promptRun msgs rest confirms (i - 1) tr (shown ++ [cur])
          else if line = ":n" then promptRun msgs rest confirms (i + 1) tr (shown ++ [cur])
          else if line = ":b" then promptRun msgs rest confirms 0 tr (shown ++ [cur])
          else if line = ":x" then ⟨shown ++ [cur], .finished tr⟩
          else if line = ":q" then
            match confirms with
            | [] => ⟨shown ++ [cur], .starved i tr⟩
            | _ :: _ => ⟨shown ++ [cur], .exited⟩
          else promptRun msgs rest confirms (i + 1) (pyDictSet tr cur line) (shown ++ [cur])
    else ⟨shown, .finished tr⟩

/-- Embedding of `prompt_for_translation msgs` run on an input trace:
`translations = {}`, `i = 0`. -/
def prompt_for_translation (msgs : List String) (inputs : List String)
    (confirms : List Bool) : SessionResult :=
  promptRun msgs inputs confirms 0 [] []

/-- The `msgid` cell of a row (total version, for stating sums of the fold). -/
def midOf (header row : List String) : String :=
  (rowGet header row ("msgid")).getD ("")

/-- The cell of a row under a language column (total version). -/
def cellOf (header row : List String) (lang : String) : String :=
  (rowGet header row lang).getD ("")

/-- Effect of the inner `for language in languages` loop for one row, as a pure
fold. -/
def innerPure (header row : List String) (ls : List String)
    (msgs : List (String × List (String × String))) :
    List (String × List (String × String)) :=
  ls.foldl
    (fun m lang =>
      pyDictSet m lang
        (pyDictSet ((pyDictGet m lang).getD []) (midOf header row)
          (cellOf header row lang)))
    msgs

/-- Effect of the outer `for row in reader` loop, as a pure fold. -/
def outerPure (header : List String) (ls : List String)
    (rows : List (List String)) (init : List (String × List (String × String))) :
    List (String × List (String × String)) :=
  rows.foldl (fun m row => innerPure header row ls m) init

/-! ### Definitions for analysing the wrapped-block reconstruction -/

/-- A word as produced by `str.split()`: nonempty and whitespace-free. -/
def wordOK (w : List Char) : Prop := w ≠ [] ∧ ∀ c ∈ w, pyIsSpace c = false

/-- Split a character list at newlines, keeping empty pieces: the physical
lines of a text. -/
def splitNL : List Char → List (List Char)
  | [] => [[]]
  | c :: cs =>
    if c = '\n' then [] :: splitNL cs
    else
      match splitNL cs with
      | [] => [[c]]
      | l :: ls => (c :: l) :: ls

/-- Append a closing quote to the last line. -/
def addLastQ : List (List Char) → List (List Char)
  | [] => []
  | [l] => [l ++ ['"']]
  | l :: l2 :: ls => l :: addLastQ (l2 :: ls)

/-- The final line produced by `_wrap_string` from a group of words: the strip
of `current_line`, whose first character is `' '` for the first group and `'"'`
for every later group. -/
def renderLast (b : Char) (u : List (List Char)) : List Char :=
  if b = '"' then '"' :: joinSp u else joinSp u

/-- A flushed (non-final) line: the strip of `current_line` followed by
`' "'`. -/
def renderFlush (b : Char) (u : List (List Char)) : List Char :=
  renderLast b u ++ [' ', '"']

/-- Lines produced from the word groups: all but the last are flushed. -/
def renderGroups : Char → List (List (List Char)) → List (List Char)
  | _, [] => []
  | b, [u] => [renderLast b u]
  | b, u :: u2 :: us => renderFlush b u :: renderGroups ('"') (u2 :: us)

/-- The grouping of words into lines made by the `_wrap_string` loop: a word
joins the current group when `len(current_line) + len(word) <= 80` — that is,
when 1 + len(joined group) + len(word) ≤ 80 — and otherwise starts a new
group. -/
def wrapGroups : List (List Char) → List (List Char) → List (List (List Char))
  | u, [] => [u]
  | u, w :: ws =>
    if 1 + (joinSp u).length + w.length ≤ 80 then wrapGroups (u ++ [w]) ws
    else u :: wrapGroups [w] ws

/-- The physical lines of the block `"{_wrap_string(v)}"` that
`replace_long_translation_in_file` splices into the catalog text. -/
def wrappedBlockLines (s : String) : List (List Char) :=
  splitNL (('"' :: (wrapString s).data) ++ ['"'])

/-- Quoted content of a physical line: the characters between the outer
quotes. -/
def lineContent (L : List Char) : List Char := (L.drop 1).dropLast

/-- The words of a line's quoted content. -/
def lineWords (L : List Char) : List (List Char) := pySplit (lineContent L)

/-- Input refuting the claimed 80-character content bound and the
space-rejoin property: a 40-character word, a 39-character word and `c`. -/
def c2Input : String :=
  ⟨List.replicate 40 'a' ++ ' ' :: (List.replicate 39 'b' ++ [' ', 'c'])⟩

/-- The claim's fuzzy-entry template: a fuzzy preamble with prior hint `P`,
an identifier line for `X`, an empty translation slot and a blank terminator
line, i.e. `#, fuzzy\n#| msgid "P"\nmsgid "X"\nmsgstr ""\n\n`. -/
def fuzzyTemplate (P X : List Char) : List Char :=
  litFuzzyHead ++ P ++ '"' :: '\n' :: (litMsgidQ ++ X ++ '"' :: litSimpleTail)

/-! ## Theorems about the claims -/

/-- Folding an append of single images equals appending the mapped list. -/
theorem foldl_append_singleton {α β : Type} (f : α → β) :
    ∀ (l : List α) (init : List β),
      l.foldl (fun acc m => acc ++ [f m]) init = init ++ l.map f := by
  intro l
  induction l with
  | nil => intro init; simp
  | cons a l ih => intro init; simp [ih]

/-- C1: the claim requires the returned text to have runs of consecutive blank
lines collapsed, but the source (line 107) calls `content.replace` and
discards the result, so `apply` returns the text of the third pass unchanged:
on a catalog of one empty-translation entry followed by a run of blank lines
and an empty mapping, the output equals the input, still containing the
`"\n\n\n\n"` run, with count 0. -/
theorem c1_blank_lines_not_collapsed :
    replace_translation_in_content []
        ("msgid \"A\"\nmsgstr \"\"\n\n\n\n") =
      (("msgid \"A\"\nmsgstr \"\"\n\n\n\n"), 0) ∧
    (("\n\n\n\n").data) <:+: (("msgid \"A\"\nmsgstr \"\"\n\n\n\n").data) := by
  constructor
  · rfl
  · decide

/-- C3 (counterexample): on the fuzzy scenario input the Patcher does not
return the claimed text `msgid "Hi"\nmsgstr "Salut"\n\n` with count 1 — the
fuzzy match stops before the input's final newline, so the output keeps an
extra trailing newline. -/
theorem c3_claimed_output_wrong :
    replace_translation_in_content [(("Hi"), ("Salut"))]
        ("#, fuzzy\n#| msgid \"Hi\"\nmsgid \"Hi\"\nmsgstr \"old\"\n") ≠
      (("msgid \"Hi\"\nmsgstr \"Salut\"\n\n"), 1) := by
  decide

/-- C3 (amended): applying the Patcher to
`#, fuzzy\n#| msgid "Hi"\nmsgid "Hi"\nmsgstr "old"\n` with `{"Hi": "Salut"}`
yields `msgid "Hi"\nmsgstr "Salut"\n\n\n` — the claimed output plus the
original entry's trailing newline, which survives after the matched span —
with count 1, the fuzzy preamble removed and the prior translation
discarded. -/
theorem c3_fuzzy_scenario :
    replace_translation_in_content [(("Hi"), ("Salut"))]
        ("#, fuzzy\n#| msgid \"Hi\"\nmsgid \"Hi\"\nmsgstr \"old\"\n") =
      (("msgid \"Hi\"\nmsgstr \"Salut\"\n\n\n"), 1) := by
  rfl

/-- C4: the claim requires `:u` to be clamped at 0, but the source does
`i -= 1` unconditionally: entering `:u` at cursor 0 over `["A", "B"]` leaves
the loop waiting at cursor `-1`, and the identifier presented next is `"B"` —
the last one, via Python negative indexing — not the first. -/
theorem c4_cursor_not_clamped :
    prompt_for_translation [("A"), ("B")] [(":u")] [] =
      ⟨[("A"), ("B")], .starved (-1) []⟩ := by
  decide

/-- C5: the claim requires `:q` to abort only when the user confirms, but the
source discards the result of `typer.confirm` and calls `sys.exit(0)`
unconditionally: answering no to the confirmation still aborts the session. -/
theorem c5_quit_ignores_declined_confirmation :
    prompt_for_translation [("A")] [(":q")] [false] = ⟨[("A")], .exited⟩ := by
  decide

/-- C6: the claim says a replaced identifier never resurfaces on re-extraction,
but replacement is raw text substitution: with the translation
`Y"\nmsgid "X"\nmsgstr "` for `X`, the single counted replacement rewrites the
entry into text that again contains the untranslated simple shape for `X`, so
re-extraction surfaces `X`. -/
theorem c6_replaced_identifier_resurfaces :
    replace_translation_in_content [(("X"), ("Y\"\nmsgid \"X\"\nmsgstr \""))]
        ("msgid \"X\"\nmsgstr \"\"\n\n") =
      (("msgid \"X\"\nmsgstr \"Y\"\nmsgid \"X\"\nmsgstr \"\"\n\n"), 1) ∧
    ("X") ∈ extract_msgs_from_file
        ("msgid \"X\"\nmsgstr \"Y\"\nmsgid \"X\"\nmsgstr \"\"\n\n") := by
  constructor
  · rfl
  · decide

/-- C7: `extract` returns the simple-shape identifiers in document order, then
the wrapped-shape identifiers, then the fuzzy-shape identifiers; an empty
catalog yields the empty sequence; duplicate identifiers are preserved, one
per match. -/
theorem c7_extract_order :
    (∀ content : String,
        extract_msgs_from_file content =
          simpleIds content ++ wrappedIds content ++ fuzzyIds content) ∧
    extract_msgs_from_file ("") = [] ∧
    extract_msgs_from_file
        ("msgid \"A\"\nmsgstr \"\"\n\nmsgid \"A\"\nmsgstr \"\"\n\n") =
      [("A"), ("A")] := by
  refine ⟨fun content => ?_, by decide, by decide⟩
  simp only [extract_msgs_from_file, wrappedIds, foldl_append_singleton,
    List.append_assoc]

/-- C9: submitting empty input never changes the session state, whatever the
confirmation answer `b` is: the collected mapping and the cursor are passed on
unchanged, only the current identifier is displayed once more, so the next
iteration presents the same identifier again. -/
theorem c9_blank_input_preserves_state
    (msgs : List String) (i : Int) (tr : List (String × String))
    (shown rest : List String) (b : Bool) (cs : List Bool) (cur : String)
    (hlt : i < (msgs.length : Int)) (hidx : pyIndex msgs i = some cur) :
    promptRun msgs (("") :: rest) (b :: cs) i tr shown =
      promptRun msgs rest cs i tr (shown ++ [cur]) := by
  rw [promptRun]
  simp [hlt, hidx]

/-- Witness for C9 at `msgs = ["A"]`, cursor 0, confirmation answer `true`. -/
theorem c9_blank_input_preserves_state_witness :
    promptRun [("A")] [("")] [true] 0 [] [] =
      promptRun [("A")] [] [] 0 [] ([] ++ [("A")]) :=
  c9_blank_input_preserves_state [("A")] 0 [] [] [] true [] ("A")
    (by decide) (by decide)

/-! ### Lemmas on the dict model, for the Interchange Codec claim -/

theorem pyDictGet_set_self {α : Type} (d : List (String × α)) (k : String) (v : α) :
    pyDictGet (pyDictSet d k v) k = some v := by
  induction d with
  | nil => simp [pyDictGet, pyDictSet]
  | cons p rest ih =>
    obtain ⟨k', v'⟩ := p
    by_cases h : k' = k
    · simp [pyDictGet, pyDictSet, h]
    · simpa [pyDictGet, pyDictSet, h] using ih

theorem pyDictGet_set_other {α : Type} (d : List (String × α)) (k k' : String)
    (v : α) (h : k' ≠ k) : pyDictGet (pyDictSet d k v) k' = pyDictGet d k' := by
  induction d with
  | nil =>
    have hb : (k == k') = false := beq_eq_false_iff_ne.mpr (fun hh => h (Eq.symm hh))
    simp [pyDictGet, pyDictSet, hb]
  | cons p rest ih =>
    obtain ⟨k'', v''⟩ := p
    by_cases h2 : k'' = k
    · subst h2
      simp [pyDictGet, pyDictSet, Ne.symm h]
    · by_cases h3 : k'' = k'
      · subst h3
        simp [pyDictGet, pyDictSet, h2]
      · simpa [pyDictGet, pyDictSet, h2, h3] using ih

theorem inner_foldlM_eq_pure (header row : List String) :
    ∀ (ls : List String) (msgs : List (String × List (String × String))),
      (rowGet header row ("msgid")).isSome →
      (∀ l ∈ ls, (rowGet header row l).isSome) →
      (ls.foldlM
        (fun msgs2 lang =>
          match rowGet header row ("msgid"), rowGet header row lang with
          | some mid, some v =>
            let inner := (pyDictGet msgs2 lang).getD []
            some (pyDictSet msgs2 lang (pyDictSet inner mid v))
          | _, _ => none)
        msgs) = some (innerPure header row ls msgs) := by
  intro ls
  induction ls with
  | nil => intro msgs _ _; simp [innerPure]
  | cons lang ls ih =>
    intro msgs hmid hl
    obtain ⟨mid, hmid'⟩ := Option.isSome_iff_exists.mp hmid
    obtain ⟨v, hv⟩ := Option.isSome_iff_exists.mp (hl lang (by simp))
    have hm2 : midOf header row = mid := by rw [midOf, hmid']; rfl
    have hc2 : cellOf header row lang = v := by rw [cellOf, hv]; rfl
    have step := ih
      (pyDictSet msgs lang (pyDictSet ((pyDictGet msgs lang).getD []) mid v))
      hmid (fun l hml => hl l (by simp [hml]))
    rw [List.foldlM_cons, hmid', hv]
    rw [hmid'] at step
    simp only [Option.bind_eq_bind, Option.some_bind]
    rw [step]
    simp [innerPure, hm2, hc2]

theorem csv_read_eq_pure (header : List String) (rows : List (List String))
    (h : ∀ row ∈ rows, (rowGet header row ("msgid")).isSome ∧
      ∀ l ∈ header.drop 1, (rowGet header row l).isSome) :
    extract_translations_from_csv header rows =
      some (outerPure header (header.drop 1) rows []) := by
  rw [extract_translations_from_csv]
  suffices hgen : ∀ (rs : List (List String))
      (init : List (String × List (String × String))),
      (∀ row ∈ rs, (rowGet header row ("msgid")).isSome ∧
        ∀ l ∈ header.drop 1, (rowGet header row l).isSome) →
      (rs.foldlM
        (fun msgs row =>
          (header.drop 1).foldlM
            (fun msgs2 lang =>
              match rowGet header row ("msgid"), rowGet header row lang with
              | some mid, some v =>
                let inner := (pyDictGet msgs2 lang).getD []
                some (pyDictSet msgs2 lang (pyDictSet inner mid v))
              | _, _ => none)
            msgs)
        init) = some (outerPure header (header.drop 1) rs init) by
    exact hgen rows [] h
  intro rs
  induction rs with
  | nil => intro init _; simp [outerPure]
  | cons row rs ih =>
    intro init hr
    rw [List.foldlM_cons,
      inner_foldlM_eq_pure header row (header.drop 1) init
        (hr row (by simp)).1 (hr row (by simp)).2]
    simp only [Option.bind_eq_bind, Option.some_bind]
    rw [ih (innerPure header row (header.drop 1) init)
      (fun r hrr => hr r (by simp [hrr]))]
    rfl

theorem innerPure_cons (header row : List String) (l0 : String) (ls : List String)
    (msgs : List (String × List (String × String))) :
    innerPure header row (l0 :: ls) msgs =
      innerPure header row ls
        (pyDictSet msgs l0
          (pyDictSet ((pyDictGet msgs l0).getD []) (midOf header row)
            (cellOf header row l0))) := rfl

theorem innerPure_get_not_mem (header row : List String) :
    ∀ (ls : List String) (msgs : List (String × List (String × String)))
      (lang : String), lang ∉ ls →
      pyDictGet (innerPure header row ls msgs) lang = pyDictGet msgs lang := by
  intro ls
  induction ls with
  | nil => intro msgs lang _; rfl
  | cons l0 ls ih =>
    intro msgs lang h
    have h1 : lang ≠ l0 := fun hh => h (by simp [hh])
    have h2 : lang ∉ ls := fun hh => h (by simp [hh])
    rw [innerPure_cons, ih _ lang h2, pyDictGet_set_other _ _ _ _ h1]

theorem innerPure_get_mem (header row : List String) :
    ∀ (ls : List String) (msgs : List (String × List (String × String)))
      (lang : String), ls.Nodup → lang ∈ ls →
      pyDictGet (innerPure header row ls msgs) lang =
        some (pyDictSet ((pyDictGet msgs lang).getD []) (midOf header row)
          (cellOf header row lang)) := by
  intro ls
  induction ls with
  | nil => intro msgs lang _ h; exact absurd h (by simp)
  | cons l0 ls ih =>
    intro msgs lang hnd hmem
    rcases List.mem_cons.mp hmem with h1 | h1
    · subst h1
      have hnot : lang ∉ ls := (List.nodup_cons.mp hnd).1
      rw [innerPure_cons, innerPure_get_not_mem _ _ _ _ _ hnot, pyDictGet_set_self]
    · have hne : lang ≠ l0 := by
        rintro rfl; exact (List.nodup_cons.mp hnd).1 h1
      rw [innerPure_cons, ih _ lang (List.nodup_cons.mp hnd).2 h1,
        pyDictGet_set_other _ _ _ _ hne]

theorem outerPure_get (header : List String) (ls : List String) (lang : String)
    (hnd : ls.Nodup) (hmem : lang ∈ ls) :
    ∀ (rows : List (List String)) (init : List (String × List (String × String))),
      rows ≠ [] →
      pyDictGet (outerPure header ls rows init) lang =
        some (rows.foldl
          (fun d row => pyDictSet d (midOf header row) (cellOf header row lang))
          ((pyDictGet init lang).getD [])) := by
  intro rows
  induction rows with
  | nil => intro init h; exact absurd rfl h
  | cons row rows ih =>
    intro init _
    by_cases hr : rows = []
    · subst hr
      rw [show outerPure header ls [row] init = innerPure header row ls init from rfl,
        innerPure_get_mem header row ls init lang hnd hmem]
      rfl
    · rw [show outerPure header ls (row :: rows) init =
          outerPure header ls rows (innerPure header row ls init) from rfl,
        ih (innerPure header row ls init) hr,
        innerPure_get_mem header row ls init lang hnd hmem]
      rfl

theorem mids_foldl_get_not_mem (header : List String) (lang : String) :
    ∀ (rows : List (List String)) (d : List (String × String)) (k : String),
      k ∉ rows.map (fun row => midOf header row) →
      pyDictGet
        (rows.foldl
          (fun d row => pyDictSet d (midOf header row) (cellOf header row lang)) d)
        k = pyDictGet d k := by
  intro rows
  induction rows with
  | nil => intro d k _; rfl
  | cons row rows ih =>
    intro d k h
    have h1 : k ≠ midOf header row := fun hh => h (by simp [hh])
    have h2 : k ∉ rows.map (fun row => midOf header row) := fun hh => h (by simp [hh])
    rw [List.foldl_cons, ih _ k h2, pyDictGet_set_other _ _ _ _ h1]

theorem mids_foldl_get_mem (header : List String) (lang : String) :
    ∀ (rows : List (List String)) (d : List (String × String)) (r : List String),
      r ∈ rows → (rows.map (fun row => midOf header row)).Nodup →
      pyDictGet
        (rows.foldl
          (fun d row => pyDictSet d (midOf header row) (cellOf header row lang)) d)
        (midOf header r) = some (cellOf header r lang) := by
  intro rows
  induction rows with
  | nil => intro d r h _; exact absurd h (by simp)
  | cons row rows ih =>
    intro d r hmem hnd
    rw [List.map_cons] at hnd
    have hnd' := List.nodup_cons.mp hnd
    rcases List.mem_cons.mp hmem with h1 | h1
    · subst h1
      rw [List.foldl_cons, mids_foldl_get_not_mem header lang rows _ _ hnd'.1,
        pyDictGet_set_self]
    · rw [List.foldl_cons]
      exact ih _ r h1 hnd'.2

/-- C8: with no language column the Codec returns an empty per-language map
rather than an error; with language columns present, every (row, language)
cell — the empty string included — becomes an entry of that language's map,
provided the language names are distinct and the identifiers of the rows are
distinct. -/
theorem c8_csv_read :
    (∀ (idcol : String) (rows : List (List String)),
        extract_translations_from_csv [idcol] rows = some []) ∧
    (∀ (langs : List String) (rows : List (List String)) (lang : String)
        (r : List String) (mid v : String),
        langs.Nodup →
        (∀ row ∈ rows, (rowGet (("msgid") :: langs) row ("msgid")).isSome ∧
          ∀ l ∈ langs, (rowGet (("msgid") :: langs) row l).isSome) →
        (rows.map (fun row => rowGet (("msgid") :: langs) row ("msgid"))).Nodup →
        lang ∈ langs → r ∈ rows →
        rowGet (("msgid") :: langs) r ("msgid") = some mid →
        rowGet (("msgid") :: langs) r lang = some v →
        ∃ res inner,
          extract_translations_from_csv (("msgid") :: langs) rows = some res ∧
          pyDictGet res lang = some inner ∧ pyDictGet inner mid = some v) := by
  constructor
  · intro idcol rows
    rw [extract_translations_from_csv]
    induction rows with
    | nil => rfl
    | cons row rows ih =>
      rw [List.foldlM_cons]
      exact ih
  · intro langs rows lang r mid v hnd hsome hmids hlang hr hmid hv
    have hrun := csv_read_eq_pure (("msgid") :: langs) rows hsome
    have hrows : rows ≠ [] := List.ne_nil_of_mem hr
    have hm2 : midOf (("msgid") :: langs) r = mid := by rw [midOf, hmid]; rfl
    have hc2 : cellOf (("msgid") :: langs) r lang = v := by rw [cellOf, hv]; rfl
    have hmids' : (rows.map (fun row => midOf (("msgid") :: langs) row)).Nodup := by
      have hmapeq : rows.map (fun row => rowGet (("msgid") :: langs) row ("msgid")) =
          rows.map (fun row => some (midOf (("msgid") :: langs) row)) := by
        refine List.map_congr_left (fun row hrow => ?_)
        obtain ⟨m, hm⟩ := Option.isSome_iff_exists.mp (hsome row hrow).1
        rw [hm, midOf, hm]
        rfl
      rw [hmapeq, show rows.map (fun row => some (midOf (("msgid") :: langs) row)) =
        (rows.map (fun row => midOf (("msgid") :: langs) row)).map some by
          rw [List.map_map]; rfl] at hmids
      exact hmids.of_map some
    refine ⟨outerPure (("msgid") :: langs) langs rows [],
      rows.foldl
        (fun d row => pyDictSet d (midOf (("msgid") :: langs) row)
          (cellOf (("msgid") :: langs) row lang)) [],
      hrun, ?_, ?_⟩
    · rw [outerPure_get (("msgid") :: langs) langs lang hnd hlang rows [] hrows]
      rfl
    · rw [← hm2, ← hc2]
      exact mids_foldl_get_mem (("msgid") :: langs) lang rows [] r hr hmids'

/-- Witness for C8 on a concrete interchange table with an empty cell. -/
theorem c8_csv_read_witness :
    ∃ res inner,
      extract_translations_from_csv [("msgid"), ("fr")]
        [[("Hello"), ("")], [("Bye"), ("Au revoir")]] = some res ∧
      pyDictGet res ("fr") = some inner ∧
      pyDictGet inner ("Hello") = some ("") :=
  c8_csv_read.2 [("fr")] [[("Hello"), ("")], [("Bye"), ("Au revoir")]]
    ("fr") [("Hello"), ("")] ("Hello") ("")
    (by decide) (by decide) (by decide) (by decide) (by decide)
    (by decide) (by decide)

/-- Concrete instance of the fuzzy double-surfacing behavior, checked by
direct evaluation: on the literal template text the identifier `X` appears
once among the simple-shape matches and once again among the fuzzy-shape
matches, and nowhere else. -/
theorem c10_fuzzy_empty_translation_surfaced_twice :
    extract_msgs_from_file
        ("#, fuzzy\n#| msgid \"...\"\nmsgid \"X\"\nmsgstr \"\"\n\n") =
      [("X"), ("X")] ∧
    simpleIds ("#, fuzzy\n#| msgid \"...\"\nmsgid \"X\"\nmsgstr \"\"\n\n") = [("X")] ∧
    wrappedIds ("#, fuzzy\n#| msgid \"...\"\nmsgid \"X\"\nmsgstr \"\"\n\n") = [] ∧
    fuzzyIds ("#, fuzzy\n#| msgid \"...\"\nmsgid \"X\"\nmsgstr \"\"\n\n") = [("X")] := by
  refine ⟨by decide, by decide, by decide, by decide⟩

/-! ### Lemmas for the wrapped-block claim -/

theorem pyIsSpace_space : pyIsSpace (' ') = true := rfl

theorem pySplitAux_wf : ∀ (s acc : List Char),
    (∀ c ∈ acc, pyIsSpace c = false) → ∀ w ∈ pySplitAux acc s, wordOK w := by
  intro s
  induction s with
  | nil =>
    intro acc hacc w hw
    rw [pySplitAux] at hw
    by_cases h : acc.isEmpty
    · rw [if_pos h] at hw
      exact absurd hw (by simp)
    · rw [if_neg h] at hw
      have hw' : w = acc.reverse := by simpa using hw
      subst hw'
      refine ⟨by simpa [List.isEmpty_iff] using h, fun c hc => hacc c (by simpa using hc)⟩
  | cons c cs ih =>
    intro acc hacc w hw
    rw [pySplitAux] at hw
    by_cases hsp : pyIsSpace c = true
    · rw [if_pos hsp] at hw
      by_cases he : acc.isEmpty
      · rw [if_pos he] at hw
        exact ih [] (by simp) w hw
      · rw [if_neg he] at hw
        rcases List.mem_cons.mp hw with h1 | h1
        · subst h1
          refine ⟨by simpa [List.isEmpty_iff] using he,
            fun d hd => hacc d (by simpa using hd)⟩
        · exact ih [] (by simp) w h1
    · rw [if_neg hsp] at hw
      refine ih (c :: acc) ?_ w hw
      intro d hd
      rcases List.mem_cons.mp hd with h1 | h1
      · subst h1
        exact Bool.eq_false_iff.mpr hsp
      · exact hacc d h1

theorem pySplit_wf (s : List Char) : ∀ w ∈ pySplit s, wordOK w :=
  pySplitAux_wf s [] (by simp)

theorem pySplitAux_word_prepend : ∀ (w acc s : List Char),
    (∀ c ∈ w, pyIsSpace c = false) →
    pySplitAux acc (w ++ s) = pySplitAux (w.reverse ++ acc) s := by
  intro w
  induction w with
  | nil => intro acc s _; simp
  | cons c w ih =>
    intro acc s h
    have hc : pyIsSpace c = false := h c (by simp)
    rw [List.cons_append, pySplitAux, hc]
    simp only [Bool.false_eq_true, if_false]
    rw [ih (c :: acc) s (fun d hd => h d (by simp [hd]))]
    simp [List.reverse_cons, List.append_assoc]

theorem pySplitAux_space_cons (acc : List Char) (h : acc ≠ []) (s : List Char) :
    pySplitAux acc (' ' :: s) = acc.reverse :: pySplitAux [] s := by
  rw [pySplitAux, pyIsSpace_space]
  simp [List.isEmpty_iff, h]

theorem pySplitAux_word_nil (w : List Char) (hw : wordOK w) :
    pySplitAux [] w = [w] := by
  have h1 := pySplitAux_word_prepend w [] [] hw.2
  rw [List.append_nil, List.append_nil] at h1
  rw [h1, pySplitAux]
  have : w.reverse.isEmpty = false := by
    simp [List.isEmpty_iff, hw.1]
  rw [this]
  simp

theorem pySplitAux_word_space (w : List Char) (hw : wordOK w) :
    pySplitAux [] (w ++ [' ']) = [w] := by
  rw [pySplitAux_word_prepend w [] [' '] hw.2, List.append_nil,
    pySplitAux_space_cons w.reverse (by simp [hw.1]) []]
  simp [pySplitAux]

theorem joinSp_cons_cons (w v : List Char) (us : List (List Char)) :
    joinSp (w :: v :: us) = w ++ ' ' :: joinSp (v :: us) := rfl

theorem pySplit_joinSp : ∀ (u : List (List Char)), (∀ w ∈ u, wordOK w) →
    pySplitAux [] (joinSp u) = u ∧ pySplitAux [] (joinSp u ++ [' ']) = u := by
  intro u
  induction u with
  | nil =>
    intro _
    constructor
    · rfl
    · rfl
  | cons w u ih =>
    intro h
    have hw := h w (by simp)
    cases u with
    | nil =>
      exact ⟨pySplitAux_word_nil w hw, pySplitAux_word_space w hw⟩
    | cons v us =>
      have ih2 := ih (fun x hx => h x (by simp [hx]))
      constructor
      · rw [joinSp_cons_cons, pySplitAux_word_prepend w [] _ hw.2, List.append_nil,
          pySplitAux_space_cons w.reverse (by simp [hw.1]) _]
        rw [ih2.1]
        simp
      · rw [joinSp_cons_cons, List.append_assoc, List.cons_append]
        rw [pySplitAux_word_prepend w [] _ hw.2, List.append_nil]
        rw [pySplitAux_space_cons w.reverse (by simp [hw.1]) _]
        rw [ih2.2]
        simp

theorem dropWhile_eq_self_of_head (p : Char → Bool) (x : List Char)
    (h : ∀ c, x.head? = some c → p c = false) : x.dropWhile p = x := by
  cases x with
  | nil => rfl
  | cons c cs =>
    rw [List.dropWhile_cons, h c rfl]
    simp

theorem pyStrip_eq_self (x : List Char)
    (h1 : ∀ c, x.head? = some c → pyIsSpace c = false)
    (h2 : ∀ c, x.getLast? = some c → pyIsSpace c = false) : pyStrip x = x := by
  rw [pyStrip, dropWhile_eq_self_of_head _ _ h1,
    dropWhile_eq_self_of_head _ _ (fun c hc => h2 c (by rwa [List.head?_reverse] at hc)),
    List.reverse_reverse]

theorem pyStrip_space_cons (x : List Char) : pyStrip (' ' :: x) = pyStrip x := by
  rw [pyStrip, pyStrip, List.dropWhile_cons]
  simp [pyIsSpace_space]

theorem word_chars_ne_nl (w : List Char) (hw : wordOK w) :
    ∀ c ∈ w, c ≠ '\n' := by
  intro c hc h
  subst h
  have := hw.2 _ hc
  simp [pyIsSpace] at this

theorem joinSp_ne_nil (u : List (List Char)) (hu : ∀ w ∈ u, wordOK w)
    (hne : u ≠ []) : joinSp u ≠ [] := by
  cases u with
  | nil => exact absurd rfl hne
  | cons w us =>
    have hw := hu w (by simp)
    cases us with
    | nil => exact hw.1
    | cons v vs =>
      rw [joinSp_cons_cons]
      intro h
      exact hw.1 (List.append_eq_nil.mp h).1

theorem joinSp_head_nonspace (u : List (List Char)) (hu : ∀ w ∈ u, wordOK w)
    (hne : u ≠ []) : ∀ c, (joinSp u).head? = some c → pyIsSpace c = false := by
  intro c hc
  cases u with
  | nil => exact absurd rfl hne
  | cons w us =>
    have hw := hu w (by simp)
    obtain ⟨d, w', rfl⟩ : ∃ d w', w = d :: w' := by
      cases w with
      | nil => exact absurd rfl hw.1
      | cons d w' => exact ⟨d, w', rfl⟩
    have hhead : (joinSp ((d :: w') :: us)).head? = some d := by
      cases us with
      | nil => rfl
      | cons v vs => rfl
    rw [hhead] at hc
    obtain rfl : d = c := by injection hc
    exact hw.2 d (by simp)

theorem joinSp_getLast_nonspace : ∀ (u : List (List Char)),
    (∀ w ∈ u, wordOK w) → u ≠ [] →
    ∀ c, (joinSp u).getLast? = some c → pyIsSpace c = false := by
  intro u
  induction u with
  | nil => intro _ h; exact absurd rfl h
  | cons w us ih =>
    intro hu _ c hc
    have hw := hu w (by simp)
    cases us with
    | nil =>
      obtain ⟨hne', heq⟩ := List.mem_getLast?_eq_getLast (l := w) (x := c) hc
      rw [heq]
      exact hw.2 _ (List.getLast_mem hne')
    | cons v vs =>
      have hus : ∀ x ∈ v :: vs, wordOK x := fun x hx => hu x (by simp [hx])
      rw [joinSp_cons_cons, List.getLast?_append_cons] at hc
      obtain ⟨j, js, hj⟩ : ∃ j js, joinSp (v :: vs) = j :: js := by
        cases hJ : joinSp (v :: vs) with
        | nil => exact absurd hJ (joinSp_ne_nil _ hus (by simp))
        | cons j js => exact ⟨j, js, rfl⟩
      rw [hj, List.getLast?_cons_cons] at hc
      exact ih hus (by simp) c (by rw [hj]; exact hc)

theorem joinSp_chars_ne_nl : ∀ (u : List (List Char)), (∀ w ∈ u, wordOK w) →
    ∀ c ∈ joinSp u, c ≠ '\n' := by
  intro u
  induction u with
  | nil => intro _ c hc; exact absurd hc (by simp [joinSp])
  | cons w us ih =>
    intro hu c hc
    have hw := hu w (by simp)
    cases us with
    | nil => exact word_chars_ne_nl w hw c hc
    | cons v vs =>
      rw [joinSp_cons_cons] at hc
      rcases List.mem_append.mp hc with h1 | h1
      · exact word_chars_ne_nl w hw c h1
      · rcases List.mem_cons.mp h1 with h2 | h2
        · subst h2; decide
        · exact ih (fun x hx => hu x (by simp [hx])) c h2

theorem joinSp_append_singleton : ∀ (u : List (List Char)) (w : List Char),
    u ≠ [] → joinSp (u ++ [w]) = joinSp u ++ ' ' :: w := by
  intro u
  induction u with
  | nil => intro w h; exact absurd rfl h
  | cons x us ih =>
    intro w _
    cases us with
    | nil => rfl
    | cons v vs =>
      have h1 : joinSp ((x :: v :: vs) ++ [w]) = x ++ ' ' :: joinSp ((v :: vs) ++ [w]) := by
        rw [show (x :: v :: vs) ++ [w] = x :: v :: (vs ++ [w]) from rfl]
        exact joinSp_cons_cons x v (vs ++ [w])
      rw [h1, ih w (by simp), joinSp_cons_cons]
      simp [List.append_assoc]

theorem joinSp_length_append (u : List (List Char)) (w : List Char)
    (hne : u ≠ []) :
    (joinSp (u ++ [w])).length = (joinSp u).length + 1 + w.length := by
  rw [joinSp_append_singleton u w hne, List.length_append, List.length_cons]
  omega

theorem wrapGroups_ne_nil : ∀ (ws u : List (List Char)), wrapGroups u ws ≠ [] := by
  intro ws
  induction ws with
  | nil => intro u; simp [wrapGroups]
  | cons w ws ih =>
    intro u
    rw [wrapGroups]
    by_cases h : 1 + (joinSp u).length + w.length ≤ 80
    · rw [if_pos h]; exact ih _
    · rw [if_neg h]; simp

theorem wrapGroups_join : ∀ (ws u : List (List Char)),
    (wrapGroups u ws).flatten = u ++ ws := by
  intro ws
  induction ws with
  | nil => intro u; simp [wrapGroups]
  | cons w ws ih =>
    intro u
    rw [wrapGroups]
    by_cases h : 1 + (joinSp u).length + w.length ≤ 80
    · rw [if_pos h, ih]
      simp
    · rw [if_neg h]
      simp [ih]

theorem wrapGroups_mem_wf : ∀ (ws u : List (List Char)),
    (∀ w ∈ ws, wordOK w) → (∀ w ∈ u, wordOK w) → u ≠ [] →
    ∀ g ∈ wrapGroups u ws, (∀ w ∈ g, wordOK w) ∧ g ≠ [] := by
  intro ws
  induction ws with
  | nil =>
    intro u _ hu hne g hg
    rw [wrapGroups] at hg
    have : g = u := by simpa using hg
    subst this
    exact ⟨hu, hne⟩
  | cons w ws ih =>
    intro u hws hu hne g hg
    have hww := hws w (by simp)
    have hws' : ∀ x ∈ ws, wordOK x := fun x hx => hws x (by simp [hx])
    rw [wrapGroups] at hg
    by_cases h : 1 + (joinSp u).length + w.length ≤ 80
    · rw [if_pos h] at hg
      refine ih (u ++ [w]) hws' ?_ (by simp) g hg
      intro x hx
      rcases List.mem_append.mp hx with h1 | h1
      · exact hu x h1
      · have : x = w := by simpa using h1
        subst this; exact hww
    · rw [if_neg h] at hg
      rcases List.mem_cons.mp hg with h1 | h1
      · subst h1; exact ⟨hu, hne⟩
      · exact ih [w] hws' (by simpa using hww) (by simp) g h1

theorem wrapGroups_len : ∀ (ws u : List (List Char)),
    (∀ w ∈ ws, w.length ≤ 80) → (joinSp u).length ≤ 80 → u ≠ [] →
    ∀ g ∈ wrapGroups u ws, (joinSp g).length ≤ 80 := by
  intro ws
  induction ws with
  | nil =>
    intro u _ hu _ g hg
    rw [wrapGroups] at hg
    have : g = u := by simpa using hg
    subst this
    exact hu
  | cons w ws ih =>
    intro u hws hu hne g hg
    have hws' : ∀ x ∈ ws, x.length ≤ 80 := fun x hx => hws x (by simp [hx])
    rw [wrapGroups] at hg
    by_cases h : 1 + (joinSp u).length + w.length ≤ 80
    · rw [if_pos h] at hg
      refine ih (u ++ [w]) hws' ?_ (by simp) g hg
      rw [joinSp_length_append u w hne]
      omega
    · rw [if_neg h] at hg
      rcases List.mem_cons.mp hg with h1 | h1
      · subst h1; exact hu
      · refine ih [w] hws' ?_ (by simp) g h1
        simpa using hws w (by simp)

theorem wrapAux_append : ∀ (ws : List (List Char)) (cur : List Char)
    (lines : List (List Char)),
    wrapAux ws cur lines = lines ++ wrapAux ws cur [] := by
  intro ws
  induction ws with
  | nil =>
    intro cur lines
    rw [wrapAux, wrapAux]
    by_cases h : cur.isEmpty
    · simp [h]
    · simp [h]
  | cons w ws ih =>
    intro cur lines
    rw [wrapAux, wrapAux]
    by_cases h : cur.length + w.length ≤ 80
    · rw [if_pos h, if_pos h]
      exact ih _ _
    · rw [if_neg h, if_neg h, ih _ (lines ++ [pyStrip cur ++ [' ', '"']]),
        ih _ ([] ++ [pyStrip cur ++ [' ', '"']])]
      simp

theorem pyStrip_state (b : Char) (u : List (List Char))
    (hu : ∀ w ∈ u, wordOK w) (hne : u ≠ []) (hb : b = ' ' ∨ b = '"') :
    pyStrip (b :: joinSp u) = renderLast b u := by
  rcases hb with rfl | rfl
  · rw [pyStrip_space_cons, renderLast, if_neg (by decide)]
    exact pyStrip_eq_self _ (joinSp_head_nonspace u hu hne)
      (joinSp_getLast_nonspace u hu hne)
  · rw [renderLast, if_pos rfl]
    refine pyStrip_eq_self _ ?_ ?_
    · intro c hc
      obtain rfl : '"' = c := by injection hc
      decide
    · intro c hc
      obtain ⟨j, js, hj⟩ : ∃ j js, joinSp u = j :: js := by
        cases hJ : joinSp u with
        | nil => exact absurd hJ (joinSp_ne_nil _ hu hne)
        | cons j js => exact ⟨j, js, rfl⟩
      rw [hj, List.getLast?_cons_cons] at hc
      exact joinSp_getLast_nonspace u hu hne c (by rw [hj]; exact hc)

theorem wrapAux_renders : ∀ (ws : List (List Char)) (b : Char)
    (u : List (List Char)),
    (∀ w ∈ ws, wordOK w) → (∀ w ∈ u, wordOK w) → u ≠ [] → (b = ' ' ∨ b = '"') →
    wrapAux ws (b :: joinSp u) [] = renderGroups b (wrapGroups u ws) := by
  intro ws
  induction ws with
  | nil =>
    intro b u _ hu hne hb
    rw [wrapAux]
    simp only [List.isEmpty_cons, Bool.false_eq_true, if_false, List.nil_append]
    rw [pyStrip_state b u hu hne hb, wrapGroups]
    rfl
  | cons w ws ih =>
    intro b u hws hu hne hb
    have hww := hws w (by simp)
    have hws' : ∀ x ∈ ws, wordOK x := fun x hx => hws x (by simp [hx])
    rw [wrapAux, wrapGroups]
    by_cases h : 1 + (joinSp u).length + w.length ≤ 80
    · have h2 : (b :: joinSp u).length + w.length ≤ 80 := by
        rw [List.length_cons]; omega
      rw [if_pos h2, if_pos h]
      have hcur : (b :: joinSp u) ++ ' ' :: w = b :: joinSp (u ++ [w]) := by
        rw [joinSp_append_singleton u w hne]
        rfl
      rw [hcur]
      refine ih b (u ++ [w]) hws' ?_ (by simp) hb
      intro x hx
      rcases List.mem_append.mp hx with h1 | h1
      · exact hu x h1
      · have : x = w := by simpa using h1
        subst this
        exact hww
    · have h2 : ¬ ((b :: joinSp u).length + w.length ≤ 80) := by
        rw [List.length_cons]; omega
      rw [if_neg h2, if_neg h, wrapAux_append]
      have hjw : ('"' :: w : List Char) = '"' :: joinSp [w] := rfl
      rw [hjw, ih ('"') [w] hws' (by simpa using hww) (by simp) (Or.inr rfl),
        pyStrip_state b u hu hne hb]
      obtain ⟨g, gs, hg⟩ : ∃ g gs, wrapGroups [w] ws = g :: gs := by
        cases hwg : wrapGroups [w] ws with
        | nil => exact absurd hwg (wrapGroups_ne_nil ws [w])
        | cons g gs => exact ⟨g, gs, rfl⟩
      rw [hg]
      rfl

theorem splitNL_ne_nil : ∀ (s : List Char), splitNL s ≠ [] := by
  intro s
  induction s with
  | nil => simp [splitNL]
  | cons c cs ih =>
    rw [splitNL]
    by_cases h : c = '\n'
    · rw [if_pos h]; simp
    · rw [if_neg h]
      cases hs : splitNL cs with
      | nil => simp
      | cons l ls => simp

theorem splitNL_append_noNl : ∀ (a b : List Char) (l : List Char)
    (ls : List (List Char)),
    (∀ c ∈ a, c ≠ '\n') → splitNL b = l :: ls →
    splitNL (a ++ b) = (a ++ l) :: ls := by
  intro a
  induction a with
  | nil => intro b l ls _ hb; simpa using hb
  | cons c a ih =>
    intro b l ls h hb
    have hc : c ≠ '\n' := h c (by simp)
    rw [List.cons_append, splitNL, if_neg hc,
      ih b l ls (fun d hd => h d (by simp [hd])) hb]
    rfl

theorem splitNL_cons_nl (s : List Char) : splitNL ('\n' :: s) = [] :: splitNL s := by
  rw [splitNL, if_pos rfl]

theorem splitNL_joinNl : ∀ (lines : List (List Char)), lines ≠ [] →
    (∀ L ∈ lines, ∀ c ∈ L, c ≠ '\n') → splitNL (joinNl lines) = lines := by
  intro lines
  induction lines with
  | nil => intro h _; exact absurd rfl h
  | cons l ls ih =>
    intro _ h
    cases ls with
    | nil =>
      have h1 := splitNL_append_noNl l [] [] [] (h l (by simp)) rfl
      rw [List.append_nil] at h1
      exact h1
    | cons l2 ls2 =>
      have hrest : splitNL (joinNl (l2 :: ls2)) = l2 :: ls2 :=
        ih (by simp) (fun L hL => h L (by simp [hL]))
      rw [show joinNl (l :: l2 :: ls2) = l ++ '\n' :: joinNl (l2 :: ls2) from rfl]
      rw [splitNL_append_noNl l _ [] (l2 :: ls2) (h l (by simp))
        (by rw [splitNL_cons_nl, hrest])]
      simp

theorem joinNl_cons_head (c : Char) (l : List Char) (ls : List (List Char)) :
    joinNl ((c :: l) :: ls) = c :: joinNl (l :: ls) := by
  cases ls with
  | nil => rfl
  | cons l2 ls2 => rfl

theorem joinNl_addLastQ : ∀ (ls : List (List Char)) (l : List Char),
    joinNl (addLastQ (l :: ls)) = joinNl (l :: ls) ++ ['"'] := by
  intro ls
  induction ls with
  | nil => intro l; rfl
  | cons l2 ls2 ih =>
    intro l
    rw [show addLastQ (l :: l2 :: ls2) = l :: addLastQ (l2 :: ls2) from rfl]
    obtain ⟨x, xs, hx⟩ : ∃ x xs, addLastQ (l2 :: ls2) = x :: xs := by
      cases ls2 with
      | nil => exact ⟨l2 ++ ['"'], [], rfl⟩
      | cons l3 ls3 => exact ⟨l2, addLastQ (l3 :: ls3), rfl⟩
    rw [hx, show joinNl (l :: x :: xs) = l ++ '\n' :: joinNl (x :: xs) from rfl,
      ← hx, ih l2]
    rw [show joinNl (l :: l2 :: ls2) = l ++ '\n' :: joinNl (l2 :: ls2) from rfl]
    simp

theorem addLastQ_chars : ∀ (ls : List (List Char)),
    (∀ L ∈ ls, ∀ c ∈ L, c ≠ '\n') →
    ∀ L ∈ addLastQ ls, ∀ c ∈ L, c ≠ '\n' := by
  intro ls
  induction ls with
  | nil => intro _ L hL; exact absurd hL (by simp [addLastQ])
  | cons l ls2 ih =>
    intro h L hL c hc
    cases ls2 with
    | nil =>
      have : L = l ++ ['"'] := by simpa [addLastQ] using hL
      subst this
      rcases List.mem_append.mp hc with h1 | h1
      · exact h l (by simp) c h1
      · have : c = '"' := by simpa using h1
        subst this; decide
    | cons l2 ls3 =>
      rw [show addLastQ (l :: l2 :: ls3) = l :: addLastQ (l2 :: ls3) from rfl] at hL
      rcases List.mem_cons.mp hL with h1 | h1
      · subst h1
        exact h L (by simp) c hc
      · exact ih (fun x hx => h x (by simp [hx])) L h1 c hc

theorem decorate_first : ∀ (gs : List (List (List Char))) (L0 : List Char)
    (Lt : List (List Char)),
    renderGroups (' ') gs = L0 :: Lt →
    ('"' :: L0) :: Lt = renderGroups ('"') gs := by
  intro gs
  cases gs with
  | nil => intro L0 Lt h; exact absurd h (by simp [renderGroups])
  | cons u us =>
    cases us with
    | nil =>
      intro L0 Lt h
      rw [show renderGroups (' ') [u] = [joinSp u] from by
        rw [renderGroups, renderLast, if_neg (by decide)]] at h
      obtain ⟨rfl, rfl⟩ : joinSp u = L0 ∧ ([] : List (List Char)) = Lt := by
        constructor <;> injection h
      rw [show renderGroups ('"') [u] = [renderLast ('"') u] from rfl, renderLast,
        if_pos rfl]
    | cons u2 us2 =>
      intro L0 Lt h
      rw [show renderGroups (' ') (u :: u2 :: us2) =
        renderFlush (' ') u :: renderGroups ('"') (u2 :: us2) from rfl] at h
      have hL0 : renderFlush (' ') u = L0 := by injection h
      have hLt : renderGroups ('"') (u2 :: us2) = Lt := by injection h
      rw [show renderGroups ('"') (u :: u2 :: us2) =
        renderFlush ('"') u :: renderGroups ('"') (u2 :: us2) from rfl, hLt, ← hL0]
      rw [renderFlush, renderFlush, renderLast, renderLast, if_pos rfl,
        if_neg (by decide)]
      rfl

theorem renderLast_chars (b : Char) (u : List (List Char)) (_hb : b ≠ '\n')
    (hu : ∀ w ∈ u, wordOK w) : ∀ c ∈ renderLast b u, c ≠ '\n' := by
  intro c hc
  rw [renderLast] at hc
  by_cases h : b = '"'
  · rw [if_pos h] at hc
    rcases List.mem_cons.mp hc with h1 | h1
    · subst h1; decide
    · exact joinSp_chars_ne_nl u hu c h1
  · rw [if_neg h] at hc
    exact joinSp_chars_ne_nl u hu c hc

theorem renderGroups_chars : ∀ (gs : List (List (List Char))) (b : Char),
    b ≠ '\n' → (∀ g ∈ gs, ∀ w ∈ g, wordOK w) →
    ∀ L ∈ renderGroups b gs, ∀ c ∈ L, c ≠ '\n' := by
  intro gs
  induction gs with
  | nil => intro b _ _ L hL; exact absurd hL (by simp [renderGroups])
  | cons u us ih =>
    intro b hb hu L hL c hc
    cases us with
    | nil =>
      have : L = renderLast b u := by simpa [renderGroups] using hL
      subst this
      exact renderLast_chars b u hb (hu u (by simp)) c hc
    | cons u2 us2 =>
      rw [show renderGroups b (u :: u2 :: us2) =
        renderFlush b u :: renderGroups ('"') (u2 :: us2) from rfl] at hL
      rcases List.mem_cons.mp hL with h1 | h1
      · subst h1
        rw [renderFlush] at hc
        rcases List.mem_append.mp hc with h2 | h2
        · exact renderLast_chars b u hb (hu u (by simp)) c h2
        · rcases List.mem_cons.mp h2 with h3 | h3
          · subst h3; decide
          · have : c = '"' := by simpa using h3
            subst this; decide
      · exact ih ('"') (by decide) (fun g hg => hu g (by simp [hg])) L h1 c hc

theorem addLastQ_ne_nil (l : List Char) (ls : List (List Char)) :
    addLastQ (l :: ls) ≠ [] := by
  cases ls with
  | nil => simp [addLastQ]
  | cons l2 ls2 => simp [addLastQ]

theorem renderGroups_cons_shape (b : Char) (u : List (List Char))
    (us : List (List (List Char))) :
    ∃ L0 Lt, renderGroups b (u :: us) = L0 :: Lt := by
  cases us with
  | nil => exact ⟨renderLast b u, [], rfl⟩
  | cons u2 us2 => exact ⟨renderFlush b u, renderGroups ('"') (u2 :: us2), rfl⟩

theorem renderTail_ok : ∀ (gs : List (List (List Char))),
    (∀ g ∈ gs, (∀ w ∈ g, wordOK w) ∧ g ≠ []) →
    (∀ g ∈ gs, (joinSp g).length ≤ 80) →
    gs ≠ [] →
    (∀ L ∈ addLastQ (renderGroups ('"') gs),
        L.head? = some '"' ∧ L.getLast? = some '"' ∧ (lineContent L).length ≤ 81) ∧
    (addLastQ (renderGroups ('"') gs)).map lineWords = gs := by
  intro gs
  induction gs with
  | nil => intro _ _ h; exact absurd rfl h
  | cons u us ih =>
    intro hwf hlen _
    have hu := hwf u (by simp)
    cases us with
    | nil =>
      have hone : addLastQ (renderGroups ('"') [u]) =
          [('"' :: joinSp u) ++ ['"']] := by
        rw [show renderGroups ('"') [u] = [renderLast ('"') u] from rfl,
          renderLast, if_pos rfl]
        rfl
      rw [hone]
      constructor
      · intro L hL
        have : L = ('"' :: joinSp u) ++ ['"'] := by simpa using hL
        subst this
        refine ⟨rfl, ?_, ?_⟩
        · exact List.getLast?_concat _
        · rw [lineContent, show (('"' :: joinSp u) ++ ['"'] : List Char) =
            '"' :: (joinSp u ++ ['"']) from rfl]
          rw [List.drop_one, List.tail_cons, List.dropLast_concat]
          exact Nat.le_trans (hlen u (by simp)) (by omega)
      · rw [List.map_cons, List.map_nil]
        congr 1
        rw [lineWords, lineContent, show (('"' :: joinSp u) ++ ['"'] : List Char) =
          '"' :: (joinSp u ++ ['"']) from rfl]
        rw [List.drop_one, List.tail_cons, List.dropLast_concat]
        exact (pySplit_joinSp u hu.1).1
    | cons u2 us2 =>
      have ihr := ih (fun g hg => hwf g (by simp [hg]))
        (fun g hg => hlen g (by simp [hg])) (by simp)
      obtain ⟨x, xs, hx⟩ := renderGroups_cons_shape ('"') u2 us2
      have hsplit2 : addLastQ (renderGroups ('"') (u :: u2 :: us2)) =
          renderFlush ('"') u :: addLastQ (renderGroups ('"') (u2 :: us2)) := by
        rw [show renderGroups ('"') (u :: u2 :: us2) =
          renderFlush ('"') u :: renderGroups ('"') (u2 :: us2) from rfl, hx]
        rfl
      rw [hsplit2]
      have hflush : (renderFlush ('"') u : List Char) =
          ('"' :: (joinSp u ++ [' '])) ++ ['"'] := by
        rw [renderFlush, renderLast, if_pos rfl]
        simp
      constructor
      · intro L hL
        rcases List.mem_cons.mp hL with h1 | h1
        · subst h1
          refine ⟨?_, ?_, ?_⟩
          · rw [hflush]; rfl
          · rw [hflush]; exact List.getLast?_concat _
          · rw [hflush, lineContent, List.cons_append, List.drop_one,
              List.tail_cons, List.dropLast_concat, List.length_append]
            have := hlen u (by simp)
            simp
            omega
        · exact ihr.1 L h1
      · rw [List.map_cons, ihr.2]
        congr 1
        rw [lineWords, hflush, lineContent, List.cons_append, List.drop_one,
          List.tail_cons, List.dropLast_concat]
        exact (pySplit_joinSp u hu.1).2

/-- C2 (counterexample): at the translation consisting of a 40-character word,
a 39-character word and `c`, the first reconstruction line carries 81
characters of quoted content (the 80 characters of the two words plus the
trailing separator space), and rejoining the unquoted line contents with
single spaces does not reproduce the original translation. -/
theorem c2_claim_false :
    (∃ L ∈ wrappedBlockLines c2Input, 81 ≤ (lineContent L).length) ∧
    joinSp ((wrappedBlockLines c2Input).map lineContent) ≠ c2Input.data := by
  constructor
  · decide
  · decide

/-- C2 (amended): provided no single word of the translation exceeds 80
characters, every line of the wrapped reconstruction block is a quoted line
holding at most 81 characters of content (at most 80 characters of words plus
one trailing separator space), and words are never split across lines: the
words of the line contents, concatenated in order, are exactly the
whitespace-separated words of the original translation. -/
theorem c2_wrap_block_sound (s : String)
    (hw : ∀ w ∈ pySplit s.data, w.length ≤ 80) :
    (∀ L ∈ wrappedBlockLines s,
        L.head? = some '"' ∧ L.getLast? = some '"' ∧ (lineContent L).length ≤ 81) ∧
    ((wrappedBlockLines s).map lineWords).flatten = pySplit s.data := by
  cases hsplit : pySplit s.data with
  | nil =>
    have hdata : (wrapString s).data = [] := by
      show joinNl (wrapAux (pySplit s.data) [] []) = []
      rw [hsplit]
      rfl
    have hphys : wrappedBlockLines s = [['"', '"']] := by
      rw [wrappedBlockLines, hdata]
      rfl
    constructor
    · intro L hL
      have : L = ['"', '"'] := by simpa [hphys] using hL
      subst this
      refine ⟨rfl, by decide, by decide⟩
    · rw [hphys]
      decide
  | cons w0 ws =>
    have hwf : ∀ w ∈ w0 :: ws, wordOK w := by
      rw [← hsplit]; exact pySplit_wf s.data
    have hlen : ∀ w ∈ w0 :: ws, w.length ≤ 80 := by
      rw [← hsplit]; exact hw
    have hwf0 : wordOK w0 := hwf w0 (by simp)
    have hwfs : ∀ w ∈ ws, wordOK w := fun w hw2 => hwf w (by simp [hw2])
    have hdata : (wrapString s).data =
        joinNl (renderGroups (' ') (wrapGroups [w0] ws)) := by
      show joinNl (wrapAux (pySplit s.data) [] []) = _
      rw [hsplit, wrapAux, if_pos (by simpa using hlen w0 (by simp))]
      rw [show (([] : List Char) ++ ' ' :: w0) = ' ' :: joinSp [w0] from rfl]
      rw [wrapAux_renders ws (' ') [w0] hwfs (by simpa using hwf0) (by simp)
        (Or.inl rfl)]
    have hgs_wf : ∀ g ∈ wrapGroups [w0] ws, (∀ w ∈ g, wordOK w) ∧ g ≠ [] :=
      wrapGroups_mem_wf ws [w0] hwfs (by simpa using hwf0) (by simp)
    have hgs_len : ∀ g ∈ wrapGroups [w0] ws, (joinSp g).length ≤ 80 :=
      wrapGroups_len ws [w0] (fun w hw2 => hlen w (by simp [hw2]))
        (by simpa using hlen w0 (by simp)) (by simp)
    obtain ⟨L0, Lt, hL⟩ :
        ∃ L0 Lt, renderGroups (' ') (wrapGroups [w0] ws) = L0 :: Lt := by
      cases hgg : wrapGroups [w0] ws with
      | nil => exact absurd hgg (wrapGroups_ne_nil ws [w0])
      | cons g gs2 =>
        exact renderGroups_cons_shape (' ') g gs2
    have hrg := renderGroups_chars (wrapGroups [w0] ws) (' ') (by decide)
      (fun g hg => (hgs_wf g hg).1)
    rw [hL] at hrg
    have hnoNl : ∀ L ∈ ('"' :: L0) :: Lt, ∀ c ∈ L, c ≠ '\n' := by
      intro L hLm c hc
      rcases List.mem_cons.mp hLm with h1 | h1
      · subst h1
        rcases List.mem_cons.mp hc with h2 | h2
        · subst h2; decide
        · exact hrg L0 (by simp) c h2
      · exact hrg L (by simp [h1]) c hc
    have hblock : ('"' :: (wrapString s).data) ++ ['"'] =
        joinNl (addLastQ (('"' :: L0) :: Lt)) := by
      rw [hdata, hL, ← joinNl_cons_head, joinNl_addLastQ]
    have hphys : wrappedBlockLines s = addLastQ (('"' :: L0) :: Lt) := by
      rw [wrappedBlockLines, hblock]
      exact splitNL_joinNl _ (addLastQ_ne_nil _ _) (addLastQ_chars _ hnoNl)
    have hdec : ('"' :: L0) :: Lt = renderGroups ('"') (wrapGroups [w0] ws) :=
      decorate_first _ L0 Lt hL
    have hmain := renderTail_ok (wrapGroups [w0] ws) hgs_wf hgs_len
      (wrapGroups_ne_nil ws [w0])
    constructor
    · intro L hLm
      rw [hphys, hdec] at hLm
      exact hmain.1 L hLm
    · rw [hphys, hdec, hmain.2, wrapGroups_join]
      simp

/-- Witness for the amended C2 at the translation `hello world`. -/
theorem c2_wrap_block_sound_witness :
    (∀ w ∈ pySplit ("hello world").data, w.length ≤ 80) ∧
    ((∀ L ∈ wrappedBlockLines ("hello world"),
        L.head? = some '"' ∧ L.getLast? = some '"' ∧ (lineContent L).length ≤ 81) ∧
      ((wrappedBlockLines ("hello world")).map lineWords).flatten =
        pySplit ("hello world").data) :=
  ⟨by decide, c2_wrap_block_sound ("hello world") (by decide)⟩

/-! ### Lemmas for the general fuzzy double-surface claim -/

theorem dropPat_self_append : ∀ (p t : List Char), dropPat p (p ++ t) = some t := by
  intro p
  induction p with
  | nil => intro t; rfl
  | cons c p ih =>
    intro t
    rw [List.cons_append, dropPat, if_pos rfl]
    exact ih t

theorem dropPat_eq_some : ∀ (p s t : List Char), dropPat p s = some t → s = p ++ t := by
  intro p
  induction p with
  | nil =>
    intro s t h
    rw [List.nil_append]
    exact Option.some.inj h
  | cons c p ih =>
    intro s t h
    cases s with
    | nil => exact absurd h (by rw [dropPat]; simp)
    | cons d ds =>
      rw [dropPat] at h
      by_cases hcd : c = d
      · rw [if_pos hcd] at h
        rw [List.cons_append, ← ih ds t h, hcd]
      · rw [if_neg hcd] at h
        exact absurd h (by simp)

theorem dropPat_head_ne (p c : Char) (ps cs : List Char) (h : c ≠ p) :
    dropPat (p :: ps) (c :: cs) = none := by
  rw [dropPat, if_neg (fun hh => h (Eq.symm hh))]

theorem quoteFree_split : ∀ (pre q r t : List Char),
    (∀ c ∈ pre, c ≠ '"') → (∀ c ∈ q, c ≠ '"') →
    q ++ '"' :: r = pre ++ '"' :: t → q = pre ∧ r = t := by
  intro pre
  induction pre with
  | nil =>
    intro q r t _ hq h
    cases q with
    | nil =>
      refine ⟨rfl, ?_⟩
      rw [List.nil_append, List.nil_append] at h
      injection h
    | cons c qs =>
      rw [List.cons_append, List.nil_append] at h
      have hc : c = '"' := by injection h
      exact absurd hc (hq c (by simp))
  | cons p ps ih =>
    intro q r t hpre hq h
    cases q with
    | nil =>
      rw [List.nil_append, List.cons_append] at h
      have hc : '"' = p := by injection h
      exact absurd (Eq.symm hc) (hpre p (by simp))
    | cons c qs =>
      rw [List.cons_append, List.cons_append] at h
      have hc : c = p := by injection h
      have ht : qs ++ '"' :: r = ps ++ '"' :: t := by injection h
      obtain ⟨h1, h2⟩ := ih qs r t (fun d hd => hpre d (by simp [hd]))
        (fun d hd => hq d (by simp [hd])) ht
      exact ⟨by rw [hc, h1], h2⟩

theorem lineOf_cons_ne_nl (c : Char) (cs : List Char) (h : c ≠ '\n') :
    lineOf (c :: cs) = c :: lineOf cs := by
  rw [lineOf, lineOf, List.takeWhile_cons, if_pos (by simpa using h)]

theorem afterLine_cons_ne_nl (c : Char) (cs : List Char) (h : c ≠ '\n') :
    afterLine (c :: cs) = afterLine cs := by
  rw [afterLine, afterLine, List.dropWhile_cons, if_pos (by simpa using h)]

theorem lineOf_cons_nl (cs : List Char) : lineOf ('\n' :: cs) = [] := by
  rw [lineOf, List.takeWhile_cons, if_neg (by simp)]

theorem afterLine_cons_nl (cs : List Char) : afterLine ('\n' :: cs) = '\n' :: cs := by
  rw [afterLine, List.dropWhile_cons, if_neg (by simp)]

theorem lineOf_append_noNl : ∀ (a b : List Char), (∀ c ∈ a, c ≠ '\n') →
    lineOf (a ++ b) = a ++ lineOf b := by
  intro a
  induction a with
  | nil => intro b _; rfl
  | cons c a ih =>
    intro b h
    rw [List.cons_append, lineOf_cons_ne_nl c _ (h c (by simp)),
      ih b (fun d hd => h d (by simp [hd])), List.cons_append]

theorem afterLine_append_noNl : ∀ (a b : List Char), (∀ c ∈ a, c ≠ '\n') →
    afterLine (a ++ b) = afterLine b := by
  intro a
  induction a with
  | nil => intro b _; rfl
  | cons c a ih =>
    intro b h
    rw [List.cons_append, afterLine_cons_ne_nl c _ (h c (by simp))]
    exact ih b (fun d hd => h d (by simp [hd]))

theorem scanWith_nil {α : Type} (m : List Char → Option (α × List Char)) :
    ∀ fuel, scanWith m fuel [] = [] := by
  intro fuel
  cases fuel with
  | zero => rfl
  | succ f => rfl

theorem scanWith_cons_none {α : Type} (m : List Char → Option (α × List Char))
    (fuel : Nat) (c : Char) (cs : List Char) (h : m (c :: cs) = none) :
    scanWith m (fuel + 1) (c :: cs) = scanWith m fuel cs := by
  rw [scanWith, h]

theorem scanWith_cons_some {α : Type} (m : List Char → Option (α × List Char))
    (fuel : Nat) (c : Char) (cs : List Char) (a : α) (rest : List Char)
    (h : m (c :: cs) = some (a, rest)) :
    scanWith m (fuel + 1) (c :: cs) = a :: scanWith m fuel rest := by
  rw [scanWith, h]

theorem scanWith_none_all {α : Type} (m : List Char → Option (α × List Char)) :
    ∀ (s : List Char) (fuel : Nat),
      (∀ a2 : List Char, a2 <:+ s → a2 ≠ [] → m a2 = none) →
      scanWith m fuel s = [] := by
  intro s
  induction s with
  | nil => intro fuel _; exact scanWith_nil m fuel
  | cons c cs ih =>
    intro fuel h
    cases fuel with
    | zero => rfl
    | succ f =>
      rw [scanWith_cons_none m f c cs (h (c :: cs) (List.suffix_refl _) (by simp))]
      exact ih f (fun a2 h2 hne => h a2 (h2.trans (List.suffix_cons c cs)) hne)

theorem scanWith_skip {α : Type} (m : List Char → Option (α × List Char)) :
    ∀ (a b : List Char) (fuel : Nat),
      (∀ a2 : List Char, a2 <:+ a → a2 ≠ [] → m (a2 ++ b) = none) →
      a.length ≤ fuel →
      scanWith m fuel (a ++ b) = scanWith m (fuel - a.length) b := by
  intro a
  induction a with
  | nil => intro b fuel _ _; simp
  | cons c a ih =>
    intro b fuel h hfuel
    cases fuel with
    | zero => simp at hfuel
    | succ f =>
      rw [List.cons_append,
        scanWith_cons_none m f _ _
          (by
            have := h (c :: a) (List.suffix_refl _) (by simp)
            rwa [List.cons_append] at this)]
      rw [ih b f (fun a2 h2 hne => h a2 (h2.trans (List.suffix_cons c a)) hne)
        (by simpa using hfuel)]
      congr 1
      simp

theorem suffix_append_cases {α : Type} (a2 u v : List α) (h : a2 <:+ u ++ v) :
    a2 <:+ v ∨ ∃ u2, u2 <:+ u ∧ u2 ≠ [] ∧ a2 = u2 ++ v := by
  obtain ⟨t, ht⟩ := h
  rcases List.append_eq_append_iff.mp ht with ⟨a', h1, h2⟩ | ⟨c', h1, h2⟩
  · cases a' with
    | nil =>
      left
      rw [List.nil_append] at h2
      rw [h2]
    | cons x xs =>
      right
      exact ⟨x :: xs, ⟨t, Eq.symm h1⟩, by simp, h2⟩
  · left
    exact ⟨c', Eq.symm h2⟩

theorem dropPat_append : ∀ (p1 p2 s : List Char),
    dropPat (p1 ++ p2) s = (dropPat p1 s).bind (fun t => dropPat p2 t) := by
  intro p1
  induction p1 with
  | nil => intro p2 s; rfl
  | cons c p1 ih =>
    intro p2 s
    cases s with
    | nil => rfl
    | cons d ds =>
      rw [List.cons_append, dropPat, dropPat]
      by_cases h : c = d
      · rw [if_pos h, if_pos h, ih]
      · rw [if_neg h, if_neg h]
        rfl

theorem matchSimple_head_ne (c : Char) (cs : List Char) (h : c ≠ 'm') :
    matchSimple (c :: cs) = none := by
  rw [matchSimple, show litMsgidQ = 'm' :: ("sgid \"").data from rfl,
    dropPat_head_ne _ _ _ _ h]

theorem matchFuzzy_head_ne (c : Char) (cs : List Char) (h : c ≠ '#') :
    matchFuzzy (c :: cs) = none := by
  rw [matchFuzzy, show litFuzzyHead = '#' :: (", fuzzy\n#| msgid \"").data from rfl,
    dropPat_head_ne _ _ _ _ h]

theorem matchLong_head_ne (c : Char) (cs : List Char) (h : c ≠ 'm') :
    matchLong (c :: cs) = none := by
  rw [matchLong, show litMsgidQQ = 'm' :: ("sgid \"\"").data from rfl,
    dropPat_head_ne _ _ _ _ h]

theorem matchSimple_none_inside (q rest : List Char)
    (hq : ∀ c ∈ q, c ≠ '"' ∧ c ≠ '\n') :
    matchSimple (q ++ '"' :: '\n' :: rest) = none := by
  cases hdp : dropPat litMsgidQ (q ++ '"' :: '\n' :: rest) with
  | none => rw [matchSimple, hdp]
  | some t =>
    have heq2 : q ++ '"' :: ('\n' :: rest) = ("msgid ").data ++ '"' :: t := by
      have heq := dropPat_eq_some _ _ _ hdp
      rw [heq, show litMsgidQ = ("msgid ").data ++ ['"'] from rfl, List.append_assoc]
      rfl
    obtain ⟨hq1, hq2⟩ := quoteFree_split (("msgid ").data) q ('\n' :: rest) t
      (by decide) (fun c hc => (hq c hc).1) heq2
    simp only [matchSimple, hdp, ← hq2, lineOf_cons_nl]
    rw [if_neg (by simp)]

theorem matchLong_none_inside (q rest : List Char)
    (hq : ∀ c ∈ q, c ≠ '"' ∧ c ≠ '\n') :
    matchLong (q ++ '"' :: '\n' :: rest) = none := by
  cases hdp : dropPat litMsgidQQ (q ++ '"' :: '\n' :: rest) with
  | none => rw [matchLong, hdp]
  | some t =>
    have heq2 : q ++ '"' :: ('\n' :: rest) = ("msgid ").data ++ '"' :: ('"' :: t) := by
      have heq := dropPat_eq_some _ _ _ hdp
      rw [heq, show litMsgidQQ = ("msgid ").data ++ ['"', '"'] from rfl,
        List.append_assoc]
      rfl
    obtain ⟨hq1, hq2⟩ := quoteFree_split (("msgid ").data) q ('\n' :: rest) ('"' :: t)
      (by decide) (fun c hc => (hq c hc).1) heq2
    exact absurd (show ('\n' : Char) = '"' by injection hq2) (by decide)

theorem matchFuzzy_none_inside (q rest : List Char)
    (hq : ∀ c ∈ q, c ≠ '"' ∧ c ≠ '\n') :
    matchFuzzy (q ++ '"' :: '\n' :: rest) = none := by
  cases hdp : dropPat litFuzzyHead (q ++ '"' :: '\n' :: rest) with
  | none => rw [matchFuzzy, hdp]
  | some t =>
    have heq2 : q ++ '"' :: ('\n' :: rest) = ("#, fuzzy\n#| msgid ").data ++ '"' :: t := by
      have heq := dropPat_eq_some _ _ _ hdp
      rw [heq, show litFuzzyHead = ("#, fuzzy\n#| msgid ").data ++ ['"'] from rfl,
        List.append_assoc]
      rfl
    obtain ⟨hq1, hq2⟩ := quoteFree_split (("#, fuzzy\n#| msgid ").data) q
      ('\n' :: rest) t (by decide) (fun c hc => (hq c hc).1) heq2
    have : ('\n' : Char) ∈ q := by
      rw [hq1]
      decide
    exact absurd rfl (hq '\n' this).2

theorem dropPat_cons (p c : Char) (ps cs : List Char) :
    dropPat (p :: ps) (c :: cs) = if p = c then dropPat ps cs else none := rfl

theorem matchSimple_at_hint (P R2 : List Char) (hP : ∀ c ∈ P, c ≠ '\n') :
    matchSimple (litMsgidQ ++ (P ++ '"' :: '\n' :: (litMsgidQ ++ R2))) = none := by
  have hline : lineOf (P ++ '"' :: '\n' :: (litMsgidQ ++ R2)) = P ++ ['"'] := by
    rw [lineOf_append_noNl P _ hP, lineOf_cons_ne_nl _ _ (by decide), lineOf_cons_nl]
  have hafter : afterLine (P ++ '"' :: '\n' :: (litMsgidQ ++ R2)) =
      '\n' :: (litMsgidQ ++ R2) := by
    rw [afterLine_append_noNl P _ hP, afterLine_cons_ne_nl _ _ (by decide),
      afterLine_cons_nl]
  have hdp2 : dropPat litSimpleTail ('\n' :: (litMsgidQ ++ R2)) = none := by
    rw [show litSimpleTail =
      '\n' :: 'm' :: 's' :: 'g' :: ('s' :: 't' :: 'r' :: ' ' :: '"' :: '"' :: '\n' :: '\n' :: []) from rfl,
      show litMsgidQ ++ R2 = 'm' :: 's' :: 'g' :: 'i' :: ('d' :: ' ' :: '"' :: R2) from rfl]
    rw [dropPat_cons, if_pos rfl, dropPat_cons, if_pos rfl, dropPat_cons,
      if_pos rfl, dropPat_cons, if_pos rfl, dropPat_cons, if_neg (by decide)]
  simp only [matchSimple, dropPat_self_append, hline, hafter, hdp2]
  rw [if_pos (List.getLast?_concat _)]

theorem matchLong_msgid_quote (Y R : List Char) (hY : ∀ c ∈ Y, c ≠ '"')
    (hR : ((lineOf R).head? == some '"') = false) :
    matchLong (litMsgidQ ++ (Y ++ '"' :: '\n' :: R)) = none := by
  cases Y with
  | cons c Y2 =>
    have hdp : dropPat litMsgidQQ (litMsgidQ ++ (c :: Y2 ++ '"' :: '\n' :: R)) = none := by
      rw [show litMsgidQQ = litMsgidQ ++ ['"'] from rfl, dropPat_append,
        dropPat_self_append]
      rw [show ((c :: Y2 ++ '"' :: '\n' :: R : List Char)) =
        c :: (Y2 ++ '"' :: '\n' :: R) from rfl]
      exact dropPat_head_ne _ _ _ _ (hY c (by simp))
    rw [matchLong, hdp]
  | nil =>
    have hdp : dropPat litMsgidQQ (litMsgidQ ++ ([] ++ '"' :: '\n' :: R)) =
        some ('\n' :: R) := by
      rw [show litMsgidQQ = litMsgidQ ++ ['"'] from rfl, dropPat_append,
        dropPat_self_append, List.nil_append]
      rfl
    have hquote : isQuoteLine (lineOf R) = false := by
      rw [isQuoteLine, hR]
      simp
    simp only [matchLong, hdp, hquote]
    rw [if_neg (by simp)]

theorem matchSimple_at_entry (X : List Char) (hX : ∀ c ∈ X, c ≠ '\n') :
    matchSimple (litMsgidQ ++ (X ++ '"' :: litSimpleTail)) =
      some ((litMsgidQ ++ (X ++ ['"']) ++ litSimpleTail, X), []) := by
  have hline : lineOf (X ++ '"' :: litSimpleTail) = X ++ ['"'] := by
    rw [lineOf_append_noNl X _ hX,
      show lineOf ('"' :: litSimpleTail) = ['"'] from by decide]
  have hafter : afterLine (X ++ '"' :: litSimpleTail) = litSimpleTail := by
    rw [afterLine_append_noNl X _ hX,
      show afterLine ('"' :: litSimpleTail) = litSimpleTail from by decide]
  have hdp2 : dropPat litSimpleTail litSimpleTail = some [] := by decide
  simp only [matchSimple, dropPat_self_append, hline, hafter, hdp2]
  rw [if_pos (List.getLast?_concat _), List.dropLast_concat]

theorem matchFuzzy_at_zero (P X : List Char) (hP : ∀ c ∈ P, c ≠ '\n')
    (hX : ∀ c ∈ X, c ≠ '\n') :
    matchFuzzy (fuzzyTemplate P X) =
      some ((litFuzzyHead ++ (P ++ ['"']) ++ litNlMsgidQ ++ (X ++ ['"']) ++
        litNlMsgstrQ ++ [] ++ ['"'], X, []), ['\n', '\n']) := by
  have htpl : fuzzyTemplate P X = litFuzzyHead ++
      (P ++ '"' :: '\n' :: (litMsgidQ ++ (X ++ '"' :: litSimpleTail))) := by
    rw [fuzzyTemplate]
    simp [List.append_assoc]
  have hl1 : lineOf (P ++ '"' :: '\n' :: (litMsgidQ ++ (X ++ '"' :: litSimpleTail))) =
      P ++ ['"'] := by
    rw [lineOf_append_noNl P _ hP, lineOf_cons_ne_nl _ _ (by decide), lineOf_cons_nl]
  have ha1 : afterLine (P ++ '"' :: '\n' :: (litMsgidQ ++ (X ++ '"' :: litSimpleTail))) =
      '\n' :: (litMsgidQ ++ (X ++ '"' :: litSimpleTail)) := by
    rw [afterLine_append_noNl P _ hP, afterLine_cons_ne_nl _ _ (by decide),
      afterLine_cons_nl]
  have hdpn : dropPat litNlMsgidQ ('\n' :: (litMsgidQ ++ (X ++ '"' :: litSimpleTail))) =
      some (X ++ '"' :: litSimpleTail) := by
    rw [show ('\n' :: (litMsgidQ ++ (X ++ '"' :: litSimpleTail)) : List Char) =
      litNlMsgidQ ++ (X ++ '"' :: litSimpleTail) from by
        rw [show litNlMsgidQ = '\n' :: litMsgidQ from rfl, List.cons_append]]
    exact dropPat_self_append _ _
  have hl2 : lineOf (X ++ '"' :: litSimpleTail) = X ++ ['"'] := by
    rw [lineOf_append_noNl X _ hX,
      show lineOf ('"' :: litSimpleTail) = ['"'] from by decide]
  have ha2 : afterLine (X ++ '"' :: litSimpleTail) = litSimpleTail := by
    rw [afterLine_append_noNl X _ hX,
      show afterLine ('"' :: litSimpleTail) = litSimpleTail from by decide]
  have hdps : dropPat litNlMsgstrQ litSimpleTail = some ['"', '\n', '\n'] := by decide
  rw [htpl]
  simp only [matchFuzzy, dropPat_self_append, hl1, ha1, hdpn, hl2, ha2, hdps]
  rw [if_pos (List.getLast?_concat _), if_pos (List.getLast?_concat _),
    List.dropLast_concat]
  rfl

theorem head_tails_covered :
    ∀ a2 ∈ litFuzzyHead.tails, a2 = litMsgidQ ∨ a2.head? ≠ some 'm' := by
  decide

theorem msgid_tails_covered :
    ∀ a2 ∈ litMsgidQ.tails, a2 = litMsgidQ ∨ a2.head? ≠ some 'm' := by
  decide

theorem quote_nl_tails_covered :
    ∀ a2 ∈ (['"', '\n'] : List Char).tails, a2.head? ≠ some 'm' := by
  decide

theorem head_ne_of_head? {c : Char} {cs : List Char} {d : Char}
    (h : (c :: cs).head? ≠ some d) : c ≠ d := by
  intro hh
  subst hh
  exact h rfl

theorem fuzzyTemplate_length (P X : List Char) :
    (fuzzyTemplate P X).length = P.length + X.length + 41 := by
  have h1 : litFuzzyHead.length = 19 := by decide
  have h2 : litMsgidQ.length = 7 := by decide
  have h3 : litSimpleTail.length = 12 := by decide
  rw [fuzzyTemplate]
  simp [List.length_append, h1, h2, h3]
  omega

theorem scanSimple_template (P X : List Char)
    (hP : ∀ c ∈ P, c ≠ '"' ∧ c ≠ '\n') (hX : ∀ c ∈ X, c ≠ '"' ∧ c ≠ '\n') :
    scanSimple (fuzzyTemplate P X) =
      [(litMsgidQ ++ (X ++ ['"']) ++ litSimpleTail, X)] := by
  have htpl : fuzzyTemplate P X = litFuzzyHead ++
      (P ++ ('"' :: '\n' :: (litMsgidQ ++ (X ++ '"' :: litSimpleTail)))) := by
    rw [fuzzyTemplate]
    simp [List.append_assoc]
  have hfh : litFuzzyHead.length = 19 := by decide
  have hlen2 : (litFuzzyHead ++
      (P ++ ('"' :: '\n' :: (litMsgidQ ++ (X ++ '"' :: litSimpleTail))))).length =
      P.length + X.length + 41 := by
    rw [← htpl]
    exact fuzzyTemplate_length P X
  have ob1 : ∀ a2 : List Char, a2 <:+ litFuzzyHead → a2 ≠ [] →
      matchSimple (a2 ++
        (P ++ ('"' :: '\n' :: (litMsgidQ ++ (X ++ '"' :: litSimpleTail))))) = none := by
    intro a2 hs hne
    rcases head_tails_covered a2 ((List.mem_tails _ _).mpr hs) with h2 | hh
    · subst h2
      exact matchSimple_at_hint P (X ++ '"' :: litSimpleTail) (fun c hc => (hP c hc).2)
    · obtain ⟨c, cs, rfl⟩ := List.exists_cons_of_ne_nil hne
      rw [List.cons_append]
      exact matchSimple_head_ne _ _ (head_ne_of_head? hh)
  have ob2 : ∀ q : List Char, q <:+ P → q ≠ [] →
      matchSimple (q ++ ('"' :: '\n' :: (litMsgidQ ++ (X ++ '"' :: litSimpleTail)))) =
        none := by
    intro q hs _
    exact matchSimple_none_inside q _ (fun c hc => hP c (hs.subset hc))
  have ob3 : ∀ a2 : List Char, a2 <:+ (['"', '\n'] : List Char) → a2 ≠ [] →
      matchSimple (a2 ++ (litMsgidQ ++ (X ++ '"' :: litSimpleTail))) = none := by
    intro a2 hs hne
    obtain ⟨c, cs, rfl⟩ := List.exists_cons_of_ne_nil hne
    rw [List.cons_append]
    exact matchSimple_head_ne _ _
      (head_ne_of_head? (quote_nl_tails_covered _ ((List.mem_tails _ _).mpr hs)))
  have step1 := scanWith_skip matchSimple litFuzzyHead
    (P ++ ('"' :: '\n' :: (litMsgidQ ++ (X ++ '"' :: litSimpleTail))))
    (P.length + X.length + 41) ob1 (by omega)
  have step2 := scanWith_skip matchSimple P
    ('"' :: '\n' :: (litMsgidQ ++ (X ++ '"' :: litSimpleTail)))
    (P.length + (X.length + 22)) ob2 (by omega)
  have step3 := scanWith_skip matchSimple ['"', '\n']
    (litMsgidQ ++ (X ++ '"' :: litSimpleTail)) (X.length + 22) ob3 (by simp)
  have hentry := matchSimple_at_entry X (fun c hc => (hX c hc).2)
  have step4 : scanWith matchSimple (X.length + 20)
      (litMsgidQ ++ (X ++ '"' :: litSimpleTail)) =
      [(litMsgidQ ++ (X ++ ['"']) ++ litSimpleTail, X)] := by
    have h1 : scanWith matchSimple ((X.length + 19) + 1)
        (litMsgidQ ++ (X ++ '"' :: litSimpleTail)) =
        (litMsgidQ ++ (X ++ ['"']) ++ litSimpleTail, X) ::
          scanWith matchSimple (X.length + 19) [] :=
      scanWith_cons_some matchSimple (X.length + 19) ('m')
        (("sgid \"").data ++ (X ++ '"' :: litSimpleTail)) _ _ hentry
    rw [show X.length + 20 = (X.length + 19) + 1 from by omega, h1, scanWith_nil]
  rw [scanSimple, htpl, hlen2, step1, hfh,
    show P.length + X.length + 41 - 19 = P.length + (X.length + 22) from by omega,
    step2,
    show P.length + (X.length + 22) - P.length = X.length + 22 from by omega,
    show ('"' :: '\n' :: (litMsgidQ ++ (X ++ '"' :: litSimpleTail)) : List Char) =
      ['"', '\n'] ++ (litMsgidQ ++ (X ++ '"' :: litSimpleTail)) from rfl,
    step3,
    show X.length + 22 - (['"', '\n'] : List Char).length = X.length + 20 from by
      simp,
    step4]

theorem scanFuzzy_template (P X : List Char)
    (hP : ∀ c ∈ P, c ≠ '\n') (hX : ∀ c ∈ X, c ≠ '\n') :
    scanFuzzy (fuzzyTemplate P X) =
      [(litFuzzyHead ++ (P ++ ['"']) ++ litNlMsgidQ ++ (X ++ ['"']) ++
        litNlMsgstrQ ++ [] ++ ['"'], X, [])] := by
  have hcons : fuzzyTemplate P X = '#' :: ((", fuzzy\n#| msgid \"").data ++ P ++
      '"' :: '\n' :: (litMsgidQ ++ X ++ '"' :: litSimpleTail)) := by
    rw [fuzzyTemplate]
    rfl
  have hz := matchFuzzy_at_zero P X hP hX
  rw [hcons] at hz
  have hlen : (fuzzyTemplate P X).length = (P.length + X.length + 40) + 1 := by
    rw [fuzzyTemplate_length]
  have hnone : scanWith matchFuzzy (P.length + X.length + 40) ['\n', '\n'] = [] := by
    refine scanWith_none_all matchFuzzy ['\n', '\n'] _ ?_
    intro a2 hs _
    have hall : ∀ x ∈ (['\n', '\n'] : List Char).tails, matchFuzzy x = none := by
      decide
    exact hall a2 ((List.mem_tails _ _).mpr hs)
  rw [scanFuzzy, hlen, hcons,
    scanWith_cons_some matchFuzzy (P.length + X.length + 40) _ _ _ _ hz, hnone]

theorem quote_tail_tails_covered :
    ∀ x ∈ ('"' :: litSimpleTail).tails, matchLong x = none := by
  decide

theorem scanLong_template (P X : List Char)
    (hP : ∀ c ∈ P, c ≠ '"' ∧ c ≠ '\n') (hX : ∀ c ∈ X, c ≠ '"' ∧ c ≠ '\n') :
    scanLong (fuzzyTemplate P X) = [] := by
  have htpl : fuzzyTemplate P X = litFuzzyHead ++
      (P ++ ('"' :: '\n' :: (litMsgidQ ++ (X ++ '"' :: litSimpleTail)))) := by
    rw [fuzzyTemplate]
    simp [List.append_assoc]
  have hR1 : ((lineOf (litMsgidQ ++ (X ++ '"' :: litSimpleTail))).head? ==
      some '"') = false := by
    rw [show (litMsgidQ ++ (X ++ '"' :: litSimpleTail) : List Char) =
      'm' :: (("sgid \"").data ++ (X ++ '"' :: litSimpleTail)) from rfl,
      lineOf_cons_ne_nl _ _ (by decide), List.head?_cons]
    decide
  rw [scanLong]
  refine scanWith_none_all matchLong _ _ ?_
  intro a2 hs hne
  rw [htpl] at hs
  rcases suffix_append_cases a2 litFuzzyHead _ hs with hc1 | ⟨u2, hu2, hu2ne, rfl⟩
  · rcases suffix_append_cases a2 P _ hc1 with hc2 | ⟨q, hq, _, rfl⟩
    · rw [show ('"' :: '\n' :: (litMsgidQ ++ (X ++ '"' :: litSimpleTail)) :
        List Char) = ['"', '\n'] ++ (litMsgidQ ++ (X ++ '"' :: litSimpleTail))
        from rfl] at hc2
      rcases suffix_append_cases a2 ['"', '\n'] _ hc2 with hc3 | ⟨u3, hu3, hu3ne, rfl⟩
      · rcases suffix_append_cases a2 litMsgidQ _ hc3 with hc4 | ⟨u4, hu4, hu4ne, rfl⟩
        · rcases suffix_append_cases a2 X _ hc4 with hc5 | ⟨q2, hq2, _, rfl⟩
          · exact quote_tail_tails_covered a2 ((List.mem_tails _ _).mpr hc5)
          · rw [show ('"' :: litSimpleTail : List Char) =
              '"' :: '\n' :: ("msgstr \"\"\n\n").data from rfl]
            exact matchLong_none_inside q2 _ (fun c hc => hX c (hq2.subset hc))
        · rcases msgid_tails_covered u4 ((List.mem_tails _ _).mpr hu4) with h4 | hh
          · subst h4
            have hdone : matchLong (litMsgidQ ++
                (X ++ '"' :: '\n' :: ("msgstr \"\"\n\n").data)) = none :=
              matchLong_msgid_quote X _ (fun c hc => (hX c hc).1) (by decide)
            exact hdone
          · obtain ⟨c, cs, rfl⟩ := List.exists_cons_of_ne_nil hu4ne
            rw [List.cons_append]
            exact matchLong_head_ne _ _ (head_ne_of_head? hh)
      · obtain ⟨c, cs, rfl⟩ := List.exists_cons_of_ne_nil hu3ne
        rw [List.cons_append]
        exact matchLong_head_ne _ _ (head_ne_of_head?
          (quote_nl_tails_covered _ ((List.mem_tails _ _).mpr hu3)))
    · exact matchLong_none_inside q _ (fun c hc => hP c (hq.subset hc))
  · rcases head_tails_covered u2 ((List.mem_tails _ _).mpr hu2) with h2 | hh
    · subst h2
      exact matchLong_msgid_quote P _ (fun c hc => (hP c hc).1) hR1
    · obtain ⟨c, cs, rfl⟩ := List.exists_cons_of_ne_nil hu2ne
      rw [List.cons_append]
      exact matchLong_head_ne _ _ (head_ne_of_head? hh)

/-- C10: for every prior-hint text `P` and identifier `X` free of quote and
newline characters, the fuzzy entry whose translation slot is the empty
string followed by a blank terminator line — the text
`#, fuzzy\n#| msgid "P"\nmsgid "X"\nmsgstr ""\n\n` — is surfaced twice by
`extract`: `X` appears once among the simple-shape matches and once again
among the fuzzy-shape matches, and nowhere else. -/
theorem c10_fuzzy_double_general (P X : String)
    (hP : ∀ c ∈ P.data, c ≠ '"' ∧ c ≠ '\n')
    (hX : ∀ c ∈ X.data, c ≠ '"' ∧ c ≠ '\n') :
    extract_msgs_from_file (⟨fuzzyTemplate P.data X.data⟩ : String) = [X, X] ∧
    simpleIds (⟨fuzzyTemplate P.data X.data⟩ : String) = [X] ∧
    wrappedIds (⟨fuzzyTemplate P.data X.data⟩ : String) = [] ∧
    fuzzyIds (⟨fuzzyTemplate P.data X.data⟩ : String) = [X] := by
  have hsimple : simpleIds (⟨fuzzyTemplate P.data X.data⟩ : String) = [X] := by
    show (scanSimple (fuzzyTemplate P.data X.data)).map _ = [X]
    rw [scanSimple_template P.data X.data hP hX]
    rfl
  have hwrap : wrappedIds (⟨fuzzyTemplate P.data X.data⟩ : String) = [] := by
    show (scanLong (fuzzyTemplate P.data X.data)).map _ = []
    rw [scanLong_template P.data X.data hP hX]
    rfl
  have hfuzzy : fuzzyIds (⟨fuzzyTemplate P.data X.data⟩ : String) = [X] := by
    show (scanFuzzy (fuzzyTemplate P.data X.data)).map _ = [X]
    rw [scanFuzzy_template P.data X.data (fun c hc => (hP c hc).2)
      (fun c hc => (hX c hc).2)]
    rfl
  refine ⟨?_, hsimple, hwrap, hfuzzy⟩
  show ((scanLong (fuzzyTemplate P.data X.data)).foldl
      (fun acc m => acc ++ [(⟨longMsgId m.2⟩ : String)])
      (simpleIds (⟨fuzzyTemplate P.data X.data⟩ : String))) ++
    fuzzyIds (⟨fuzzyTemplate P.data X.data⟩ : String) = [X, X]
  rw [scanLong_template P.data X.data hP hX, List.foldl_nil, hsimple, hfuzzy]
  rfl

/-- Instantiating the general fuzzy double-surfacing theorem at the claim's
own literal text: hint `...` and identifier `X` are quote- and newline-free,
the template equals the claim's text, and extract surfaces `X` twice. -/
theorem c10_fuzzy_double_general_witness :
    (∀ c ∈ ("...").data, c ≠ '"' ∧ c ≠ '\n') ∧
    (∀ c ∈ ("X").data, c ≠ '"' ∧ c ≠ '\n') ∧
    (⟨fuzzyTemplate ("...").data ("X").data⟩ : String) =
      ("#, fuzzy\n#| msgid \"...\"\nmsgid \"X\"\nmsgstr \"\"\n\n") ∧
    extract_msgs_from_file (⟨fuzzyTemplate ("...").data ("X").data⟩ : String) =
      [("X"), ("X")] :=
  ⟨by decide, by decide, by decide,
    (c10_fuzzy_double_general ("...") ("X") (by decide) (by decide)).1⟩

end DjTranslation
